import Mathlib

/-! # logmonitor: line reassembly, notification matching, target dispatch, file tracking, loading

A shallow embedding of `baseimage/src/logmonitor/logmonitor.c`.

* A C string (`char *`) is the list of the bytes that precede its terminating NUL; a pointer
  that may be `NULL` is an `Option`.
* Memory allocation inside `handle_read` (`strdup`, `realloc`) and for the paths of the file
  table (`strdup` in `create_context`) is taken to succeed.
* Sizes and read offsets of files are natural numbers.
* Operating-system behaviour (what a spawned process does, what the clock reads, whether a
  `fork` succeeds) is an explicit argument of the function that consumes it.
* `handle_line` can end in undefined behaviour (it hands a string literal to `free`); its
  model reports that and the calls made until then.  The models of `handle_read` and of the
  loops of `main` follow the program as long as its calls of `handle_line` return.
-/

namespace Logmonitor

/-- A C string: the bytes before the terminating NUL. -/
abbrev CStr := List Char

/-! ## Line reassembly (`handle_read`) -/

/-- The call `strchr(s, c)`, as the offset of the first `c` in `s` (`none` for `NULL`). -/
def strchr : CStr → Char → Option Nat
  | [], _ => none
  | x :: xs, c => if x = c then some 0 else (strchr xs c).map (· + 1)

/-- The size `strlen(mf->pending_buf) + strlen(buf) + 1` that `handle_read` computes for the
work buffer.  Chunks come from a `BUFSIZ` byte read buffer and a pending buffer that is kept
is shorter than 500 KiB, so the `int` that holds the value does not overflow. -/
def new_buf_size (pending_buf buf : CStr) : Nat :=
  pending_buf.length + buf.length + 1

/-- The guard `new_buf_size > (500 * 1024)` of `handle_read`; it is evaluated only when the
file has a pending buffer. -/
def line_too_long (pending_buf : Option CStr) (buf : CStr) : Bool :=
  match pending_buf with
  | some p => decide (new_buf_size p buf > 500 * 1024)
  | none => false

/-- The function `handle_read`, with a bound on the depth of its recursion.  The result is
the list of lines passed to `handle_line`, in call order, and the value of
`mf->pending_buf` on return; `none` means the bound was too small. -/
def handle_read_fuel : Nat → Option CStr → CStr → Option (List CStr × Option CStr)
  | 0, _, _ => none
  | fuel + 1, pending_buf, buf =>
    -- Create the work buffer.
    let work : Option CStr :=
      match pending_buf with
      | some p => if new_buf_size p buf > 500 * 1024 then none else some (p ++ buf)
      | none => some buf
    match work with
    | none => some ([], none)
    | some work_buf =>
      match strchr work_buf '\n' with
      | some eol =>
        let next_line := work_buf.drop (eol + 1)
        -- Remove the end of line characters.
        let line :=
          if eol ≠ 0 ∧ work_buf[eol - 1]? = some '\r' then work_buf.take (eol - 1)
          else work_buf.take eol
        -- Handle the line.
        let handled := if line.length > 0 then [line] else []
        -- Handle the next potential line.
        if next_line.length > 0 then
          match handle_read_fuel fuel none next_line with
          | some (lines, pending) => some (handled ++ lines, pending)
          | none => none
        else some (handled, none)
      | none => some ([], some work_buf)

/-- The function `handle_read` on a file whose pending buffer is `pending_buf`, fed the chunk
`buf`.  One recursive call is made per newline at most, so the length of the work buffer
plus one bounds the depth. -/
def handle_read (pending_buf : Option CStr) (buf : CStr) : Option (List CStr × Option CStr) :=
  handle_read_fuel ((pending_buf.getD []).length + buf.length + 1) pending_buf buf

/-- The successive calls `handle_read(ctx, i, tailbuf)` of the read loop for one file: the
lines handled over all the chunks and the pending buffer left at the end. -/
def feed : Option CStr → List CStr → Option (List CStr × Option CStr)
  | pending_buf, [] => some ([], pending_buf)
  | pending_buf, chunk :: chunks =>
    match handle_read pending_buf chunk with
    | none => none
    | some (lines, pending) =>
      match feed pending chunks with
      | none => none
      | some (lines', pending') => some (lines ++ lines', pending')

/-- No call of `handle_read` in the run over `chunks` takes the "line too long" branch. -/
def cap_free : Option CStr → List CStr → Bool
  | _, [] => true
  | pending_buf, chunk :: chunks =>
    !line_too_long pending_buf chunk &&
      match handle_read pending_buf chunk with
      | some (_, pending) => cap_free pending chunks
      | none => false

/-- A candidate line with one trailing carriage return removed, if there is one. -/
def strip_cr (s : CStr) : CStr :=
  if s.getLast? = some '\r' then s.dropLast else s

/-- The text made of the given segments, each followed by a newline, and then `rest`. -/
def terminated (segments : List CStr) (rest : CStr) : CStr :=
  (segments.map (· ++ ['\n'])).flatten ++ rest

/-- The lines `handle_line` is expected to receive for the given newline-terminated
segments: each segment without its trailing carriage return, the empty ones left out. -/
def expected_lines (segments : List CStr) : List CStr :=
  (segments.map strip_cr).filter (fun s => decide (s ≠ []))

/-- The pending buffer that a call of `handle_read` without pending buffer leaves, for a work
buffer made of `segments` and `rest`. -/
def pending_after (segments : List CStr) (rest : CStr) : Option CStr :=
  if segments = [] then some rest else if rest = [] then none else some rest

/-! ## Process runner (`safe_read`, `full_read`, `invoke_exec`, `invoke_exec_no_wait`) -/

def LM_SUCCESS : Int := 0

def LM_ERROR : Int := 1

/-- What one `read` system call on the pipe does. -/
inductive ReadResult where
  /-- The call returned `data.length` and stored `data`; no byte means end of file. -/
  | bytes (data : List Char)
  /-- The call returned -1 with `errno == EINTR`. -/
  | eintr
  /-- The call returned -1 with `errno == EAGAIN`. -/
  | eagain
  /-- The call returned -1 with any other `errno`. -/
  | failed
  deriving DecidableEq

/-- The function `safe_read` over the results of the successive `read` calls: the bytes
obtained (`none` for a negative return value) and the results not consumed.  Once the
results are used up the pipe is at end of file. -/
def safe_read : List ReadResult → Nat → Option (List Char) × List ReadResult
  | [], _ => (some [], [])
  | ReadResult.bytes data :: rest, _ => (some data, rest)
  | ReadResult.eintr :: rest, count => safe_read rest count
  | ReadResult.eagain :: rest, _ => (some [], rest)
  | ReadResult.failed :: rest, _ => (none, rest)

/-- The loop of `full_read`: `got` holds the `total` bytes stored so far, `len` is the room
left.  Every turn that continues lowers `len`, so `len` turns are enough. -/
def full_read_fuel : Nat → List ReadResult → Nat → List Char → Option (List Char)
  | 0, _, _, got => some got
  | fuel + 1, reads, len, got =>
    if len = 0 then some got
    else
      match safe_read reads len with
      | (none, _) => if got.length ≠ 0 then some got else none
      | (some data, rest) =>
        if data.length = 0 then some got
        else full_read_fuel fuel rest (len - data.length) (got ++ data)

/-- The function `full_read`: the bytes stored in the buffer, their number being the return
value, or `none` for the return value -1. -/
def full_read (reads : List ReadResult) (len : Nat) : Option (List Char) :=
  full_read_fuel len reads len []

/-- A byte buffer read as a C string: the bytes before the first NUL. -/
def c_string (buffer : List Char) : CStr :=
  buffer.takeWhile (fun c => decide (c ≠ '\x00'))

/-- How `waitpid` ends for the child, interrupted calls left aside. -/
inductive WaitStatus where
  /-- The call `waitpid` failed. -/
  | failed
  /-- The child exited (`WIFEXITED`) with this `WEXITSTATUS`; a child whose `execv` fails
  exits with 127. -/
  | exited (code : Nat)
  /-- The child ended in another way (killed by a signal). -/
  | killed
  deriving DecidableEq

/-- What the operating system does during one call of `invoke_exec`. -/
structure ProcRun where
  pipe_ok : Bool
  fork_ok : Bool
  reads : List ReadResult
  wait : WaitStatus

/-- What a call of `invoke_exec` hands back: its return value, `*exit_code` when it was
written, and the output buffer as a C string. -/
structure ExecResult where
  retval : Int
  exit_code : Option Nat
  output : CStr

/-- The function `invoke_exec`, in the parent process.  `has_output` tells whether `output`
is not `NULL`. -/
def invoke_exec (run : ProcRun) (has_output : Bool) (outputsize : Nat) : ExecResult :=
  let redirect_stdout := has_output && decide (outputsize > 0)
  -- Create a pipe.
  let retval_pipe := if redirect_stdout && !run.pipe_ok then LM_ERROR else LM_SUCCESS
  -- Fork.
  let retval_fork :=
    if retval_pipe = LM_SUCCESS then (if run.fork_ok then LM_SUCCESS else LM_ERROR)
    else retval_pipe
  -- Handle output from child and wait for its termination.
  if retval_fork = LM_SUCCESS then
    let read : Int × CStr :=
      if redirect_stdout then
        match full_read run.reads (outputsize - 1) with
        | none => (LM_ERROR, [])
        | some data => (LM_SUCCESS, c_string data)
      else (LM_SUCCESS, [])
    match run.wait with
    | WaitStatus.exited code => { retval := read.1, exit_code := some code, output := read.2 }
    | _ => { retval := LM_ERROR, exit_code := none, output := read.2 }
  else { retval := retval_fork, exit_code := none, output := [] }

/-- The function `invoke_exec_no_wait`, in the parent process. -/
def invoke_exec_no_wait (fork_ok : Bool) : Int :=
  if fork_ok then LM_SUCCESS else LM_ERROR

/-- The function `invoke_filter`. -/
def invoke_filter (run : ProcRun) : Int :=
  let r := invoke_exec run false 0
  if r.retval = LM_SUCCESS then (if r.exit_code = some 0 then LM_SUCCESS else LM_ERROR)
  else r.retval

/-- The function `invoke_target`. -/
def invoke_target (fork_ok : Bool) : Int :=
  invoke_exec_no_wait fork_ok

/-- The function `terminate_str_at_first_eol`. -/
def terminate_str_at_first_eol : CStr → CStr
  | [] => []
  | c :: cs => if c = '\n' ∨ c = '\r' then [] else c :: terminate_str_at_first_eol cs

/-! ## Notification matching and target dispatch (`handle_line`) -/

def BUFFER_SIZE : Nat := 512

def EXECERROR : CStr := "EXECERROR".toList

/-- An entry of `monitored_files` in `lm_notification_t`. -/
structure MonitoredFileRef where
  path : CStr
  is_status : Bool

/-- The type `lm_notification_t`; `num_monitored_files` is the length of `monitored_files`. -/
structure Notification where
  name : CStr
  filter : CStr
  title : CStr
  is_title_exe : Bool
  desc : CStr
  is_desc_exe : Bool
  level : CStr
  is_level_exe : Bool
  monitored_files : List MonitoredFileRef

/-- The type `lm_target_t`. -/
structure Target where
  name : CStr
  send : CStr
  debouncing : Int
  last_notif_sent : Nat → Int

/-- The executables of a notification. -/
inductive Field where
  | filter
  | title
  | desc
  | level
  deriving DecidableEq

/-- What the environment does during one call of `handle_line`.  Every entry is consulted
once at most: per notification and field for the processes run, per notification and
target for the clock and the `fork` of the send executable. -/
structure LineEnv where
  /-- The run of the process started for a field of notification `nidx`. -/
  run : Nat → Field → ProcRun
  /-- Whether `calloc(1, BUFFER_SIZE)` succeeds for a field of notification `nidx`. -/
  calloc_ok : Nat → Field → Bool
  /-- The value of `get_time()` compared with the debouncing interval (`nidx`, `tidx`). -/
  time_check : Nat → Nat → Int
  /-- The value of `get_time()` stored in `last_notif_sent` (`nidx`, `tidx`). -/
  time_sent : Nat → Nat → Int
  /-- Whether the `fork` of `invoke_exec_no_wait` succeeds (`nidx`, `tidx`). -/
  fork_ok : Nat → Nat → Bool

/-- The calls that `handle_line` makes to the process runner. -/
inductive Event where
  /-- A call `invoke_exec(exe, { line }, ...)` for a field of notification `nidx`. -/
  | exec (nidx : Nat) (field : Field) (exe : CStr) (line : CStr)
  /-- A call `invoke_target(send, title, desc, level)` for target `tidx`, with the value it
  returned. -/
  | send (nidx tidx : Nat) (exe : CStr) (title desc level : Option CStr) (retval : Int)
  deriving DecidableEq

/-- The block that runs the title or the description executable: the buffer pointer after
it, `NULL` being `none`. -/
def resolve_text (calloc_ok : Bool) (run : ProcRun) : Option CStr :=
  if calloc_ok then
    let r := invoke_exec run true BUFFER_SIZE
    if r.retval = LM_SUCCESS then
      if r.exit_code = some 0 then some (terminate_str_at_first_eol r.output)
      else none
    else none
  else none

/-- The block that runs the level executable: the buffer pointer after it. -/
def resolve_level (calloc_ok : Bool) (run : ProcRun) : Option CStr :=
  if calloc_ok then
    let r := invoke_exec run true BUFFER_SIZE
    if r.retval = LM_SUCCESS then
      if r.exit_code = some 0 then
        let level := terminate_str_at_first_eol r.output
        if level ≠ "ERROR".toList ∧ level ≠ "WARNING".toList ∧ level ≠ "INFO".toList then none
        else some level
      else none
    else none
  else none

/-- The `invoke_exec` call of a field block, made when its buffer was allocated. -/
def exec_events (calloc_ok : Bool) (nidx : Nat) (field : Field) (exe line : CStr) :
    List Event :=
  if calloc_ok then [Event.exec nidx field exe line] else []

/-- The pointers `title`, `desc` and `level` when the target loop starts. -/
structure Fields where
  title : Option CStr
  desc : Option CStr
  level : Option CStr

/-- The three field blocks of `handle_line` for a matched notification. -/
def resolve_fields (env : LineEnv) (nidx : Nat) (notif : Notification) : Fields :=
  -- Get the notification title.
  let title : Option CStr :=
    if notif.is_title_exe then
      match resolve_text (env.calloc_ok nidx Field.title) (env.run nidx Field.title) with
      | some t => some t
      | none => some EXECERROR
    else some notif.title
  -- Get the notification description.
  let desc : Option CStr :=
    if notif.is_desc_exe then
      match resolve_text (env.calloc_ok nidx Field.desc) (env.run nidx Field.desc) with
      | some d => some d
      | none => some EXECERROR
    else some notif.desc
  -- Get the notification level.
  if notif.is_level_exe then
    match resolve_level (env.calloc_ok nidx Field.level) (env.run nidx Field.level) with
    | some l => { title := title, desc := desc, level := some l }
    | none => { title := some EXECERROR, desc := desc, level := none }
  else { title := title, desc := desc, level := some notif.level }

/-- The `invoke_exec` calls made by the three field blocks, in order. -/
def resolve_events (env : LineEnv) (nidx : Nat) (notif : Notification) (buf : CStr) :
    List Event :=
  (if notif.is_title_exe then
      exec_events (env.calloc_ok nidx Field.title) nidx Field.title notif.title buf else []) ++
  (if notif.is_desc_exe then
      exec_events (env.calloc_ok nidx Field.desc) nidx Field.desc notif.desc buf else []) ++
  (if notif.is_level_exe then
      exec_events (env.calloc_ok nidx Field.level) nidx Field.level notif.level buf else [])

/-- The two `continue` paths of the target loop ("Ignoring target"): `now` is the value of
`get_time()` read for the comparison. -/
def ignoring_target (debouncing last_notif_sent now : Int) : Bool :=
  if last_notif_sent > 0 then
    if debouncing = 0 then true
    else if now - last_notif_sent < debouncing then true
    else false
  else false

/-- One turn of the target loop for notification `nidx`: the target afterwards and whether
`invoke_target` was called.  The return value of `invoke_target` is not looked at. -/
def target_step (t : Target) (nidx : Nat) (now_check now_sent : Int) : Target × Bool :=
  if ignoring_target t.debouncing (t.last_notif_sent nidx) now_check then (t, false)
  else ({ t with last_notif_sent := Function.update t.last_notif_sent nidx now_sent }, true)

/-- The target loop of `handle_line` from target index `tidx` on. -/
def for_each_target (env : LineEnv) (nidx : Nat) (f : Fields) :
    Nat → List Target → List Target × List Event
  | _, [] => ([], [])
  | tidx, t :: ts =>
    let step := target_step t nidx (env.time_check nidx tidx) (env.time_sent nidx tidx)
    let rest := for_each_target env nidx f (tidx + 1) ts
    (step.1 :: rest.1,
      (if step.2 then
          [Event.send nidx tidx t.send f.title f.desc f.level
            (invoke_target (env.fork_ok nidx tidx))]
        else []) ++ rest.2)

/-- Whether the notification is bound to the monitored file at `path` (`!skip`). -/
def bound_to (notif : Notification) (path : CStr) : Bool :=
  notif.monitored_files.any (fun m => decide (m.path = path))

/-- The three `free` calls that end the match branch of `handle_line`: whether one of them
is handed the string literal `"EXECERROR"` instead of a buffer that `calloc` returned, which
is undefined behaviour.  With an executable title, `title` points to the literal after a
failure of the title block or of the level block; with an executable description, `desc`
points to the literal after a failure of the description block; `level` is a buffer or
`NULL`. -/
def frees_literal (env : LineEnv) (nidx : Nat) (notif : Notification) : Bool :=
  -- if (notif->is_title_exe && title) free(title);
  (notif.is_title_exe &&
    ((resolve_text (env.calloc_ok nidx Field.title) (env.run nidx Field.title)).isNone ||
      (notif.is_level_exe &&
        (resolve_level (env.calloc_ok nidx Field.level) (env.run nidx Field.level)).isNone))) ||
  -- if (notif->is_desc_exe && desc) free(desc);
  (notif.is_desc_exe &&
    (resolve_text (env.calloc_ok nidx Field.desc) (env.run nidx Field.desc)).isNone)

/-- The body of the notification loop of `handle_line` for notification `nidx`: the targets
afterwards, the calls made, in order, and whether the body ended in undefined behaviour (the
`free` of a string literal), in which case the calls are those made before it. -/
def handle_notification (env : LineEnv) (path buf : CStr) (nidx : Nat) (notif : Notification)
    (targets : List Target) : List Target × List Event × Bool :=
  -- Skip this notification if not for the monitored file.
  if !bound_to notif path then (targets, [], false)
  else if invoke_filter (env.run nidx Field.filter) = LM_SUCCESS then
    -- Filter indicated a match.
    let sent := for_each_target env nidx (resolve_fields env nidx notif) 0 targets
    (sent.1,
      Event.exec nidx Field.filter notif.filter buf :: resolve_events env nidx notif buf
        ++ sent.2,
      frees_literal env nidx notif)
  else (targets, [Event.exec nidx Field.filter notif.filter buf], false)

/-- The notification loop of `handle_line` from notification index `nidx` on.  Nothing is
known of the execution after undefined behaviour: the loop is followed up to there. -/
def for_each_notification (env : LineEnv) (path buf : CStr) :
    Nat → List Notification → List Target → List Target × List Event × Bool
  | _, [], targets => (targets, [], false)
  | nidx, notif :: rest, targets =>
    let here := handle_notification env path buf nidx notif targets
    if here.2.2 then here
    else
      let later := for_each_notification env path buf (nidx + 1) rest here.1
      (later.1, here.2.1 ++ later.2.1, later.2.2)

/-- The function `handle_line` for the line `buf` of the monitored file at `path`: the
targets afterwards, the calls made, in order, and whether the call ran into undefined
behaviour instead of returning. -/
def handle_line (env : LineEnv) (notifications : List Notification) (targets : List Target)
    (path buf : CStr) : List Target × List Event × Bool :=
  for_each_notification env path buf 0 notifications targets

/-- The matches of one notification seen by one target, one after the other: `times` gives
for each match the two values of `get_time()`; the result counts the calls of
`invoke_target`. -/
def matches_run (nidx : Nat) : Target → List (Int × Int) → Target × Nat
  | t, [] => (t, 0)
  | t, (now_check, now_sent) :: times =>
    let step := target_step t nidx now_check now_sent
    let rest := matches_run nidx step.1 times
    (rest.1, (if step.2 then 1 else 0) + rest.2)

/-- A target as `alloc_target` leaves it: `calloc` zeroes every slot of `last_notif_sent`. -/
def loaded_target (send : CStr) (debouncing : Int) : Target :=
  { name := [], send := send, debouncing := debouncing, last_notif_sent := fun _ => 0 }

/-- A loaded target that recorded a send of notification `nidx` at the clock value `sent`. -/
def target_sent_at (send : CStr) (debouncing : Int) (nidx : Nat) (sent : Int) : Target :=
  { name := [], send := send, debouncing := debouncing,
    last_notif_sent := Function.update (fun _ => 0) nidx sent }

/-- An environment in which the clock reads `now` throughout, every allocation and every
`fork` of a send executable succeeds, and the processes behave as `run` tells. -/
def env_at (now : Int) (run : Nat → Field → ProcRun) : LineEnv :=
  { run := run, calloc_ok := fun _ _ => true, time_check := fun _ _ => now,
    time_sent := fun _ _ => now, fork_ok := fun _ _ => true }

/-- A process that is spawned, writes `output` in one piece and exits with `code`. -/
def proc_exits (code : Nat) (output : List Char) : ProcRun :=
  { pipe_ok := true, fork_ok := true, reads := [ReadResult.bytes output],
    wait := WaitStatus.exited code }

/-- The filter call recorded by an event, if it is one: notification index, executable and
line. -/
def filter_call : Event → Option (Nat × CStr × CStr)
  | Event.exec nidx Field.filter exe line => some (nidx, exe, line)
  | _ => none

/-- The filter calls among the calls made, in order. -/
def filter_calls (events : List Event) : List (Nat × CStr × CStr) :=
  events.filterMap filter_call

/-- A field executable fails to deliver a value: its buffer cannot be allocated, the pipe or
the `fork` fails, or the child does not exit with code 0 (a child that cannot `execv` exits
with 127). -/
def exec_fails (calloc_ok : Bool) (run : ProcRun) : Prop :=
  calloc_ok = false ∨ run.pipe_ok = false ∨ run.fork_ok = false ∨
    run.wait ≠ WaitStatus.exited 0

/-- The notification of the end-to-end scenario: bound to `/var/log/app.log`, each of title,
description and level either the literal of the scenario or, when the flag is set, an
executable. -/
def disk_full (title_exe desc_exe level_exe : Bool) : Notification :=
  { name := "disk-full".toList, filter := "filter".toList,
    title := if title_exe then "title".toList else "Disk full".toList,
    is_title_exe := title_exe,
    desc := if desc_exe then "desc".toList else "check disk".toList,
    is_desc_exe := desc_exe,
    level := if level_exe then "level".toList else "ERROR".toList,
    is_level_exe := level_exe,
    monitored_files := [{ path := "/var/log/app.log".toList, is_status := false }] }

/-- The vector `all_args` that the child of `invoke_exec_no_wait` builds: `exec`, the entries
of `args`, then `NULL`. -/
def all_args (exec : CStr) (args : List (Option CStr)) : List (Option CStr) :=
  some exec :: args ++ [none]

/-- The arguments that `execv` hands to the new program: the entries of the vector before
its first `NULL`. -/
def execv_argv : List (Option CStr) → List CStr
  | [] => []
  | none :: _ => []
  | some a :: rest => a :: execv_argv rest

/-- The argument vector that the send executable of a call of `invoke_target` receives. -/
def send_argv : Event → Option (List CStr)
  | Event.send _ _ exe title desc level _ => some (execv_argv (all_args exe [title, desc, level]))
  | _ => none

/-- An end-of-line character for `terminate_str_at_first_eol`. -/
def is_eol (c : Char) : Bool :=
  decide (c = '\n' ∨ c = '\r')

/-! ## File tracking (the loops of `main`) -/

def STATUS_FILE_READ_INTERVAL : Int := 5

/-- The fields of `struct stat` that the program reads. -/
structure Stat where
  st_dev : Nat
  st_ino : Nat
  st_size : Nat
  st_mtime : Int
  deriving DecidableEq

/-- An open file descriptor (`fd >= 0`), with the read offset of its open file.  The
monitored files are regular files, on which `lseek` succeeds. -/
structure Handle where
  offset : Nat
  deriving DecidableEq

/-- The type `lm_monitored_file_t`; `fd` is `none` when the field is negative. -/
structure MonitoredFile where
  path : CStr
  fd : Option Handle
  is_status : Bool
  last_read : Int
  last_stat : Stat
  pending_buf : Option CStr
  deriving DecidableEq

/-- The body of the loop "Open all files to be monitored" of `main`.  `opened` is `none`
when `open` fails, and otherwise the size of the file, where `lseek(fd, 0, SEEK_END)` puts
the read offset. -/
def open_monitored_file (mf : MonitoredFile) (opened : Option Nat) : MonitoredFile :=
  match opened with
  | some size =>
    if !mf.is_status then { mf with fd := some { offset := size } }
    else { mf with fd := some { offset := 0 } }
  | none => { mf with fd := none }

/-- What the tick does to the monitored file and the reassembler. -/
inductive TickEvent where
  /-- The call `close(fd)` on the old descriptor. -/
  | close
  /-- The call `open(filename, O_RDONLY|O_NONBLOCK)` of the poll loop and whether it gave a
  descriptor; `size` is the size of the file opened. -/
  | open (ok : Bool) (size : Nat)
  /-- A call `tail_read(fd, tailbuf, BUFSIZ)` issued with the read offset at `offset`; `size`
  is the `st_size` that `fstat` gave just before, when it succeeded. -/
  | read (offset : Nat) (size : Option Nat)
  /-- A call `handle_read(ctx, i, tailbuf)` with the chunk in `tailbuf`. -/
  | handle_read (chunk : CStr)
  deriving DecidableEq

/-- What the operating system does during one turn of the read loop. -/
structure ReadTurn where
  /-- The `st_size` given by `fstat(fd, &sbuf)`, `none` when the call fails. -/
  fstat_size : Option Nat
  /-- The results of the `read` calls made by `tail_read`. -/
  reads : List ReadResult

/-- The truncation check of the read loop: the read offset after it. -/
def truncation_guard (fstat_size : Option Nat) (current : Nat) : Nat :=
  match fstat_size with
  | some st_size => if st_size < current then 0 else current
  | none => current

/-- The loop "Read the file until its end" from the read offset `offset`: the offset
afterwards and what was done.  The turns given are those the loop takes, the last one being
the turn whose read returns nothing or fails; the loop is over when they are used up. -/
def read_loop (bufsiz : Nat) : List ReadTurn → Nat → Nat × List TickEvent
  | [], offset => (offset, [])
  | turn :: turns, offset =>
    -- Check if the file has been truncated.
    let current := truncation_guard turn.fstat_size offset
    match full_read turn.reads bufsiz with
    | none => (current, [TickEvent.read current turn.fstat_size])
    | some data =>
      if data.length = 0 then (current, [TickEvent.read current turn.fstat_size])
      else
        let rest := read_loop bufsiz turns (current + data.length)
        (rest.1,
          TickEvent.read current turn.fstat_size :: TickEvent.handle_read (c_string data)
            :: rest.2)

/-- What the environment does during the tick of one monitored file. -/
structure TickEnv where
  /-- The value of `get_time()` in the test of the status file interval. -/
  now_check : Int
  /-- The result of `stat(filename, &sbuf)`, `none` when `stat_rc < 0`. -/
  stat_path : Option Stat
  /-- The result of `fstat(fd, &fsbuf)` on the descriptor held, `none` when it fails. -/
  fstat_fd : Option Stat
  /-- The result of `open` in the poll loop: `none` when it fails, the size of the file
  opened otherwise. -/
  opened : Option Nat
  /-- The value of `get_time()` stored when a status file is the same. -/
  now_same : Int
  /-- The turns of the read loop. -/
  turns : List ReadTurn
  /-- The value of `get_time()` stored after the read loop. -/
  now_end : Int

/-- The condition of the block "Re-open the file if needed". -/
def needs_reopen (fd : Option Handle) (env : TickEnv) : Bool :=
  match fd with
  | none => true
  | some _ =>
    match env.fstat_fd with
    | none => true
    | some fsbuf =>
      match env.stat_path with
      | none => true
      | some sbuf =>
        decide (fsbuf.st_dev ≠ sbuf.st_dev) || decide (fsbuf.st_ino ≠ sbuf.st_ino)

/-- The block "Re-open the file if needed": the descriptor afterwards and what was done. -/
def reopen (fd : Option Handle) (env : TickEnv) : Option Handle × List TickEvent :=
  if needs_reopen fd env then
    ((match env.opened with
      | some _ => some { offset := 0 }
      | none => none),
      (if fd.isSome then [TickEvent.close] else []) ++
        [TickEvent.open env.opened.isSome (env.opened.getD 0)])
  else (fd, [])

/-- The test "Check if the file changed" of a status file, true in the branch "Status file
is the same". -/
def status_unchanged (sbuf last_stat : Stat) : Bool :=
  if sbuf.st_size ≠ last_stat.st_size then false
  else if sbuf.st_mtime ≠ last_stat.st_mtime then false
  else if sbuf.st_dev ≠ last_stat.st_dev then false
  else if sbuf.st_ino ≠ last_stat.st_ino then false
  else true

/-- The chunks passed to `handle_read` among what was done. -/
def fed_chunks : List TickEvent → List CStr
  | [] => []
  | TickEvent.handle_read chunk :: rest => chunk :: fed_chunks rest
  | _ :: rest => fed_chunks rest

/-- The `tail_read` calls among what was done. -/
def read_calls (events : List TickEvent) : List TickEvent :=
  events.filter (fun e => match e with
    | TickEvent.read _ _ => true
    | _ => false)

/-- The pending buffer after the chunks were passed to `handle_read`. -/
def pending_after_chunks (pending_buf : Option CStr) (chunks : List CStr) : Option CStr :=
  match feed pending_buf chunks with
  | some r => r.2
  | none => pending_buf

/-- The part of the tick of a monitored file that follows `if (fd < 0) continue;`, with the
descriptor `h` and what the reopen block did. -/
def tick_open (bufsiz : Nat) (env : TickEnv) (mf : MonitoredFile) (h : Handle)
    (done : List TickEvent) : MonitoredFile × List TickEvent :=
  let same :=
    mf.is_status &&
      match env.stat_path with
      | some sbuf => status_unchanged sbuf mf.last_stat
      | none => false
  if same then
    -- Status file is the same.  Skip it.
    ({ mf with fd := some h, last_read := env.now_same }, done)
  else
    -- Update file status.
    let last_stat :=
      if mf.is_status then
        match env.stat_path with
        | some sbuf => sbuf
        | none => mf.last_stat
      else mf.last_stat
    -- Status files are always read from the beginning.
    let start := if mf.is_status then 0 else h.offset
    -- Read the file until its end.
    let loop := read_loop bufsiz env.turns start
    ({ mf with
        fd := some { offset := loop.1 }, last_stat := last_stat, last_read := env.now_end,
        pending_buf := pending_after_chunks mf.pending_buf (fed_chunks loop.2) },
      done ++ loop.2)

/-- The body of the loop "Tail the files" of `main` for one monitored file; `bufsiz` is
`BUFSIZ`. -/
def poll_file (bufsiz : Nat) (env : TickEnv) (mf : MonitoredFile) :
    MonitoredFile × List TickEvent :=
  -- Skip status file if we read it recently.
  if mf.is_status && decide (env.now_check - mf.last_read < STATUS_FILE_READ_INTERVAL) then
    (mf, [])
  else
    -- Re-open the file if needed.
    let r := reopen mf.fd env
    match r.1 with
    | none => ({ mf with fd := none }, r.2)
    | some h => tick_open bufsiz env mf h r.2

/-! ## The file table (`create_context`) -/

def MAX_NUM_NOTIFICATIONS : Nat := 16

def MAX_NUM_MONITORED_FILES_PER_NOTIFICATION : Nat := 4

def MAX_NUM_MONITORED_FILES : Nat :=
  MAX_NUM_NOTIFICATIONS * MAX_NUM_MONITORED_FILES_PER_NOTIFICATION

/-- The search of the file table for the path of a binding, the inner loop of "Set monitored
files": `none` when no entry has the path, and otherwise whether the first entry that has
it is of the kind of the binding. -/
def find_monitored_file : List MonitoredFile → MonitoredFileRef → Option Bool
  | [], _ => none
  | mf :: rest, m =>
    if mf.path = m.path then some (decide (mf.is_status = m.is_status))
    else find_monitored_file rest m

/-- The entry that "Set monitored files" appends for a binding; the context comes from
`calloc`, so the fields not assigned are zero. -/
def new_monitored_file (m : MonitoredFileRef) : MonitoredFile :=
  { path := m.path, fd := none, is_status := m.is_status, last_read := 0,
    last_stat := { st_dev := 0, st_ino := 0, st_size := 0, st_mtime := 0 },
    pending_buf := none }

/-- The loop of "Set monitored files" over the bindings of one notification: the file table
afterwards, `none` when a binding names the path of an entry of the other kind. -/
def add_monitored_files :
    List MonitoredFile → List MonitoredFileRef → Option (List MonitoredFile)
  | table, [] => some table
  | table, m :: rest =>
    match find_monitored_file table m with
    | some false => none
    | some true => add_monitored_files table rest
    | none => add_monitored_files (table ++ [new_monitored_file m]) rest

/-- The loop of "Set monitored files" over the notifications. -/
def set_monitored_files :
    List MonitoredFile → List Notification → Option (List MonitoredFile)
  | table, [] => some table
  | table, notif :: rest =>
    match add_monitored_files table notif.monitored_files with
    | some filled => set_monitored_files filled rest
    | none => none

/-- The file table that `create_context` builds from the notifications loaded, `none` when
it fails.  The allocation of the paths is taken to succeed. -/
def create_file_table (notifications : List Notification) : Option (List MonitoredFile) :=
  set_monitored_files [] notifications

/-- The bindings of all the notifications, in load order. -/
def bindings : List Notification → List MonitoredFileRef
  | [] => []
  | notif :: rest => notif.monitored_files ++ bindings rest

/-! ## The debouncing value of a target (`alloc_target`) -/

def INT_MAX : Int := 2147483647

def INT_MIN : Int := -2147483648

def LONG_MAX : Int := 9223372036854775807

def LONG_MIN : Int := -9223372036854775808

/-- The library function `isspace` in the C locale. -/
def isspace (c : Char) : Bool :=
  decide (c = ' ' ∨ c = '\t' ∨ c = '\n' ∨ c = '\x0b' ∨ c = '\x0c' ∨ c = '\r')

/-- The library function `isdigit`. -/
def isdigit (c : Char) : Bool :=
  decide ('0'.toNat ≤ c.toNat ∧ c.toNat ≤ '9'.toNat)

/-- The value of a decimal digit character. -/
def digit_value (c : Char) : Nat :=
  c.toNat - '0'.toNat

/-- The digits that `strtol` converts at the start of the text: the value they give on top of
`acc` and their number. -/
def strtol_digits : CStr → Nat → Nat × Nat
  | [], acc => (acc, 0)
  | c :: cs, acc =>
    if isdigit c then
      ((strtol_digits cs (acc * 10 + digit_value c)).1,
        (strtol_digits cs (acc * 10 + digit_value c)).2 + 1)
    else (acc, 0)

/-- The library function `strtol(str, &end, 10)` as the C standard describes it, for a `long`
of 64 bits: the value returned and the offset of `end` in `str`.  White space is skipped,
an optional sign is read, then the digits; without a digit nothing is converted and `end`
is `str`; a value out of the range of `long` is replaced by `LONG_MIN` or `LONG_MAX`. -/
def strtol (str : CStr) : Int × Nat :=
  let spaces := (str.takeWhile isspace).length
  let signed := str.drop spaces
  let negative := decide (signed.head? = some '-')
  let sign := if signed.head? = some '-' ∨ signed.head? = some '+' then 1 else 0
  let digits := strtol_digits (signed.drop sign) 0
  if digits.2 = 0 then (0, 0)
  else
    let val : Int := if negative then -(digits.1 : Int) else (digits.1 : Int)
    (if val > LONG_MAX then LONG_MAX else if val < LONG_MIN then LONG_MIN else val,
      spaces + sign + digits.2)

/-- The block "Convert the debouncing value" of `alloc_target`: the value assigned to
`target->debouncing`, `none` when the value is refused.  `errno_erange` is the outcome of
the test `ERANGE == errno`. -/
def convert_debouncing (debouncing_str : CStr) (errno_erange : Bool) : Option Int :=
  let val := (strtol debouncing_str).1
  let end_offset := (strtol debouncing_str).2
  if end_offset = 0
      ∨ debouncing_str.drop end_offset ≠ []
      ∨ ((LONG_MIN = val ∨ LONG_MAX = val) ∧ errno_erange = true)
      ∨ val > INT_MAX
      ∨ val < INT_MIN then none
  else some val

/-- The debouncing value that `alloc_target` takes from the content of the file
`debouncing`: the first line of the file, converted. -/
def load_debouncing (content : CStr) (errno_erange : Bool) : Option Int :=
  convert_debouncing (terminate_str_at_first_eol content) errno_erange

/-- The character of a decimal digit. -/
def digit_char (d : Nat) : Char :=
  Char.ofNat ('0'.toNat + d)

/-- The number that a sequence of decimal digits writes, most significant digit first. -/
def decimal_value (digits : List Nat) : Nat :=
  digits.foldl (fun acc d => acc * 10 + d) 0

/-- The integer written by an optional minus sign and a sequence of decimal digits. -/
def signed_value (negative : Bool) (digits : List Nat) : Int :=
  if negative then -(decimal_value digits : Int) else (decimal_value digits : Int)

/-- The text of a decimal integer: an optional minus sign and the digits. -/
def decimal (negative : Bool) (digits : List Nat) : CStr :=
  (if negative then ['-'] else []) ++ digits.map digit_char

/-- The monitored file `/var/log/app.log` of the end-to-end scenario, of the kind given,
with the descriptor `fd` and nothing recorded yet. -/
def app_log (is_status : Bool) (fd : Option Handle) : MonitoredFile :=
  { path := "/var/log/app.log".toList, fd := fd, is_status := is_status, last_read := 0,
    last_stat := { st_dev := 0, st_ino := 0, st_size := 0, st_mtime := 0 },
    pending_buf := none }

/-- A tick at clock value 100 in which the path names the file given by `sbuf`, the
descriptor held is on the file given by `fsbuf`, an `open` gives a file of `sbuf.st_size`
bytes, and the read loop finds `content` from the start of the file and then its end. -/
def tick_env (sbuf fsbuf : Stat) (content : List Char) : TickEnv :=
  { now_check := 100, stat_path := some sbuf, fstat_fd := some fsbuf,
    opened := some sbuf.st_size, now_same := 100,
    turns := [{ fstat_size := some sbuf.st_size, reads := [ReadResult.bytes content] },
      { fstat_size := some sbuf.st_size, reads := [] }],
    now_end := 100 }

/-- The `stat` of a file on device 1 with the inode, size and modification time given. -/
def stat_of (ino size : Nat) (mtime : Int) : Stat :=
  { st_dev := 1, st_ino := ino, st_size := size, st_mtime := mtime }

/-- Every `read` call made by the loop of `full_read` returns at most the number of bytes it
was asked for (`len`, the room left at the time of the call). -/
def reads_within : Nat → List ReadResult → Nat → Bool
  | 0, _, _ => true
  | fuel + 1, reads, len =>
    if len = 0 then true
    else
      match safe_read reads len with
      | (none, _) => true
      | (some data, rest) =>
        decide (data.length ≤ len) &&
          (decide (data.length = 0) || reads_within fuel rest (len - data.length))

/-- The `read` calls of `full_read(fd, buf, len)` keep to the count they are given. -/
def read_contract (reads : List ReadResult) (len : Nat) : Bool :=
  reads_within len reads len

/-- A process that is spawned, whose output arrives as the `read` results given, and that
exits with `code`. -/
def proc_reads (reads : List ReadResult) (code : Nat) : ProcRun :=
  { pipe_ok := true, fork_ok := true, reads := reads, wait := WaitStatus.exited code }

/-- The notification of the end-to-end scenario with other bindings. -/
def disk_full_on (files : List MonitoredFileRef) : Notification :=
  { disk_full false false false with monitored_files := files }

/-! # Theorems -/

/-! ### Lemmas on `strchr` and on newline-terminated text -/

theorem strchr_of_not_mem (c : Char) (s : CStr) (h : c ∉ s) : strchr s c = none := by
  induction s with
  | nil => rfl
  | cons x xs ih =>
    have hx : x ≠ c := fun e => h (by simp [e])
    have hxs : c ∉ xs := fun e => h (by simp [e])
    simp [strchr, hx, ih hxs]

theorem strchr_append (c : Char) (s rest : CStr) (h : c ∉ s) :
    strchr (s ++ c :: rest) c = some s.length := by
  induction s with
  | nil => simp [strchr]
  | cons x xs ih =>
    have hx : x ≠ c := fun e => h (by simp [e])
    have hxs : c ∉ xs := fun e => h (by simp [e])
    simp [strchr, hx, ih hxs]

theorem terminated_nil (rest : CStr) : terminated [] rest = rest := by
  simp [terminated]

theorem terminated_cons (s : CStr) (ss : List CStr) (rest : CStr) :
    terminated (s :: ss) rest = s ++ '\n' :: terminated ss rest := by
  simp [terminated]

theorem terminated_append (ss ts : List CStr) (rest : CStr) :
    terminated (ss ++ ts) rest = terminated ss (terminated ts rest) := by
  induction ss with
  | nil => simp [terminated_nil]
  | cons s ss ih => simp [terminated_cons, ih]

theorem length_le_terminated (ss : List CStr) (rest : CStr) :
    ss.length ≤ (terminated ss rest).length := by
  induction ss with
  | nil => simp
  | cons s ss ih => simp [terminated_cons]; omega

theorem terminated_eq_nil (ss : List CStr) (rest : CStr) (h : terminated ss rest = []) :
    ss = [] ∧ rest = [] := by
  cases ss with
  | nil => exact ⟨rfl, by simpa [terminated_nil] using h⟩
  | cons s ss => simp [terminated_cons] at h

/-- Every text is a sequence of newline-terminated segments followed by an unterminated
remainder. -/
theorem exists_terminated (w : CStr) :
    ∃ ss rest, (∀ s ∈ ss, '\n' ∉ s) ∧ '\n' ∉ rest ∧ w = terminated ss rest := by
  induction w with
  | nil => exact ⟨[], [], by simp, by simp, by simp [terminated_nil]⟩
  | cons x w ih =>
    obtain ⟨ss, rest, hss, hrest, hw⟩ := ih
    by_cases hx : x = '\n'
    · refine ⟨[] :: ss, rest, ?_, hrest, ?_⟩
      · intro s hs
        rcases List.mem_cons.1 hs with h | h
        · simp [h]
        · exact hss s h
      · simp [terminated_cons, hx, hw]
    · cases ss with
      | nil =>
        refine ⟨[], x :: rest, by simp, ?_, ?_⟩
        · intro h
          rcases List.mem_cons.1 h with h | h
          · exact hx h.symm
          · exact hrest h
        · simp [terminated_nil] at hw ⊢
          exact hw
      | cons s ss =>
        refine ⟨(x :: s) :: ss, rest, ?_, hrest, ?_⟩
        · intro t ht
          rcases List.mem_cons.1 ht with h | h
          · subst h
            intro h
            rcases List.mem_cons.1 h with h | h
            · exact hx h.symm
            · exact hss s (by simp) h
          · exact hss t (by simp [h])
        · simp [terminated_cons] at hw ⊢
          exact hw

theorem append_newline_inj (s t a b : CStr) (hs : '\n' ∉ s) (ht : '\n' ∉ t)
    (h : s ++ '\n' :: a = t ++ '\n' :: b) : s = t ∧ a = b := by
  induction s generalizing t with
  | nil =>
    cases t with
    | nil => simpa using h
    | cons y t =>
      simp at h
      exact absurd (List.mem_cons.2 (Or.inl h.1)) ht
  | cons x s ih =>
    cases t with
    | nil =>
      simp at h
      exact absurd (List.mem_cons.2 (Or.inl h.1.symm)) hs
    | cons y t =>
      simp at h
      have hs' : '\n' ∉ s := fun e => hs (by simp [e])
      have ht' : '\n' ∉ t := fun e => ht (by simp [e])
      obtain ⟨h1, h2⟩ := ih t hs' ht' h.2
      exact ⟨by rw [h.1, h1], h2⟩

theorem newline_mem_terminated_cons (s : CStr) (ss : List CStr) (rest : CStr) :
    '\n' ∈ terminated (s :: ss) rest := by
  simp [terminated_cons]

/-- The decomposition into newline-terminated segments and a remainder is unique. -/
theorem terminated_inj (ss ts : List CStr) (a b : CStr)
    (hss : ∀ s ∈ ss, '\n' ∉ s) (hts : ∀ s ∈ ts, '\n' ∉ s) (ha : '\n' ∉ a) (hb : '\n' ∉ b)
    (h : terminated ss a = terminated ts b) : ss = ts ∧ a = b := by
  induction ss generalizing ts with
  | nil =>
    cases ts with
    | nil => simpa [terminated_nil] using h
    | cons t ts =>
      rw [terminated_nil] at h
      exact absurd (h ▸ newline_mem_terminated_cons t ts b) ha
  | cons s ss ih =>
    cases ts with
    | nil =>
      rw [terminated_nil] at h
      exact absurd (h ▸ newline_mem_terminated_cons s ss a) hb
    | cons t ts =>
      rw [terminated_cons, terminated_cons] at h
      obtain ⟨h1, h2⟩ := append_newline_inj s t _ _ (hss s (by simp)) (hts t (by simp)) h
      obtain ⟨h3, h4⟩ := ih ts (fun u hu => hss u (by simp [hu]))
        (fun u hu => hts u (by simp [hu])) h2
      exact ⟨by rw [h1, h3], h4⟩

theorem expected_lines_append (ss ts : List CStr) :
    expected_lines (ss ++ ts) = expected_lines ss ++ expected_lines ts := by
  simp [expected_lines]

/-! ### `handle_read` on newline-terminated text -/

theorem stripped_line (s rest : CStr) :
    (if s.length ≠ 0 ∧ (s ++ '\n' :: rest)[s.length - 1]? = some '\r'
      then (s ++ '\n' :: rest).take (s.length - 1) else (s ++ '\n' :: rest).take s.length)
      = strip_cr s := by
  cases hs : s.length with
  | zero =>
    have : s = [] := List.length_eq_zero.1 hs
    subst this
    simp [strip_cr]
  | succ n =>
    have h1 : (s ++ '\n' :: rest)[n]? = s.getLast? := by
      rw [List.getElem?_append_left (by omega), List.getLast?_eq_getElem?, hs]
      simp
    have h2 : (s ++ '\n' :: rest).take n = s.dropLast := by
      rw [List.take_append_of_le_length (by omega), List.dropLast_eq_take, hs]
      simp
    have h3 : (s ++ '\n' :: rest).take (n + 1) = s := by
      rw [← hs]; simp
    simp only [Nat.add_sub_cancel, h1, h2, h3, strip_cr]
    simp

theorem handle_read_fuel_terminated (segments : List CStr) (rest : CStr) (fuel : Nat)
    (hseg : ∀ s ∈ segments, '\n' ∉ s) (hrest : '\n' ∉ rest) (hfuel : segments.length < fuel) :
    handle_read_fuel fuel none (terminated segments rest)
      = some (expected_lines segments, pending_after segments rest) := by
  induction segments generalizing fuel with
  | nil =>
    cases fuel with
    | zero => simp at hfuel
    | succ f =>
      simp [handle_read_fuel, terminated_nil, strchr_of_not_mem _ _ hrest, expected_lines,
        pending_after]
  | cons s ss ih =>
    cases fuel with
    | zero => simp at hfuel
    | succ f =>
      have hs : '\n' ∉ s := hseg s (by simp)
      have hss : ∀ t ∈ ss, '\n' ∉ t := fun t ht => hseg t (by simp [ht])
      have hf : ss.length < f := by simpa using hfuel
      have hdrop : (s ++ '\n' :: terminated ss rest).drop (s.length + 1) = terminated ss rest := by
        rw [show s ++ '\n' :: terminated ss rest = (s ++ ['\n']) ++ terminated ss rest by simp]
        exact List.drop_left' (by simp)
      have hexp : expected_lines (s :: ss)
          = (if (strip_cr s).length > 0 then [strip_cr s] else []) ++ expected_lines ss := by
        by_cases h : strip_cr s = [] <;> simp [expected_lines, h, List.length_pos]
      rw [terminated_cons]
      simp only [handle_read_fuel, strchr_append _ _ _ hs, hdrop, stripped_line, hexp]
      by_cases hnext : (terminated ss rest).length > 0
      · rw [if_pos hnext, ih f hss hf]
        have hp : pending_after ss rest = pending_after (s :: ss) rest := by
          by_cases h1 : ss = []
          · subst h1
            have : rest ≠ [] := by
              intro h; simp [terminated_nil, h] at hnext
            simp [pending_after, this]
          · simp [pending_after, h1]
        simp [hp]
      · rw [if_neg hnext]
        have h0 : terminated ss rest = [] := by
          cases h : terminated ss rest with
          | nil => rfl
          | cons a b => simp [h] at hnext
        obtain ⟨h1, h2⟩ := terminated_eq_nil ss rest h0
        subst h1 h2
        simp [expected_lines, pending_after]

/-- A call that does not take the "line too long" branch behaves as a call without pending
buffer on the pending text followed by the chunk. -/
theorem handle_read_fuel_pending (fuel : Nat) (p buf : CStr)
    (h : line_too_long (some p) buf = false) :
    handle_read_fuel fuel (some p) buf = handle_read_fuel fuel none (p ++ buf) := by
  cases fuel with
  | zero => rfl
  | succ f =>
    have h' : ¬ new_buf_size p buf > 500 * 1024 := by simpa [line_too_long] using h
    simp [handle_read_fuel, h']

theorem handle_read_of_terminated (pending_buf : Option CStr) (buf : CStr)
    (segments : List CStr) (rest : CStr)
    (hcap : line_too_long pending_buf buf = false)
    (hseg : ∀ s ∈ segments, '\n' ∉ s) (hrest : '\n' ∉ rest)
    (hw : pending_buf.getD [] ++ buf = terminated segments rest) :
    handle_read pending_buf buf
      = some (expected_lines segments, pending_after segments rest) := by
  have hlen : segments.length < (pending_buf.getD []).length + buf.length + 1 := by
    have := length_le_terminated segments rest
    rw [← hw, List.length_append] at this
    omega
  cases pending_buf with
  | none =>
    simp only [Option.getD_none, List.nil_append] at hw
    rw [handle_read, hw]
    exact handle_read_fuel_terminated segments rest _ hseg hrest (by rw [← hw]; exact hlen)
  | some p =>
    simp only [Option.getD_some] at hw
    rw [handle_read, handle_read_fuel_pending _ _ _ hcap, hw]
    exact handle_read_fuel_terminated segments rest _ hseg hrest hlen

theorem terminated_append_right (ss : List CStr) (a b : CStr) :
    terminated ss a ++ b = terminated ss (a ++ b) := by
  simp [terminated]

theorem pending_after_getD (ss : List CStr) (rest : CStr) :
    (pending_after ss rest).getD [] = rest := by
  by_cases h1 : ss = [] <;> by_cases h2 : rest = [] <;> simp [pending_after, h1, h2]

theorem not_mem_of_terminated_nil (w rest : CStr) (ss : List CStr) (hw : '\n' ∉ w)
    (h : w = terminated ss rest) : ss = [] ∧ rest = w := by
  cases ss with
  | nil => exact ⟨rfl, by rw [h, terminated_nil]⟩
  | cons s ss => exact absurd (h ▸ newline_mem_terminated_cons s ss rest) hw

/-- The run of `handle_read` over a sequence of chunks, from any pending buffer that holds no
newline: the lines handled and the pending buffer left depend on the pending text followed
by the concatenation of the chunks only. -/
theorem feed_of_terminated (chunks : List CStr) :
    ∀ (p : Option CStr) (segments : List CStr) (rest : CStr),
      '\n' ∉ p.getD [] → (∀ s ∈ segments, '\n' ∉ s) → '\n' ∉ rest →
      p.getD [] ++ chunks.flatten = terminated segments rest →
      cap_free p chunks = true →
      ∃ q, feed p chunks = some (expected_lines segments, q) ∧ q.getD [] = rest ∧
        (p ≠ some [] → (∀ c ∈ chunks, c ≠ []) → q = if rest = [] then none else some rest) := by
  induction chunks with
  | nil =>
    intro p segments rest hp _ _ hw _
    simp only [List.flatten_nil, List.append_nil] at hw
    obtain ⟨h1, h2⟩ := not_mem_of_terminated_nil _ rest segments hp hw
    subst h1
    refine ⟨p, by simp [feed, expected_lines], h2.symm, ?_⟩
    intro hne _
    cases p with
    | none => simp at h2; simp [h2]
    | some x =>
      simp at h2
      subst h2
      have : rest ≠ [] := by
        intro h; apply hne; rw [h]
      simp [this]
  | cons c cs ih =>
    intro p segments rest hp hseg hrest hw hcap
    obtain ⟨s1, r1, hs1, hr1, hw1⟩ := exists_terminated (p.getD [] ++ c)
    obtain ⟨s2, r2, hs2, hr2, hw2⟩ := exists_terminated (r1 ++ cs.flatten)
    have hc1 : line_too_long p c = false := by
      simp only [cap_free, Bool.and_eq_true, Bool.not_eq_true'] at hcap
      exact hcap.1
    have hstep := handle_read_of_terminated p c s1 r1 hc1 hs1 hr1 hw1
    have hc2 : cap_free (pending_after s1 r1) cs = true := by
      simp only [cap_free, hstep, Bool.and_eq_true] at hcap
      exact hcap.2
    have hall : terminated segments rest = terminated (s1 ++ s2) r2 := by
      rw [terminated_append, ← hw2, ← terminated_append_right, ← hw1, ← hw]
      simp
    have hs12 : ∀ s ∈ s1 ++ s2, '\n' ∉ s := by
      intro s hs
      rcases List.mem_append.1 hs with h | h
      · exact hs1 s h
      · exact hs2 s h
    obtain ⟨e1, e2⟩ := terminated_inj segments (s1 ++ s2) rest r2 hseg hs12 hrest hr2 hall
    subst e1 e2
    obtain ⟨q, hq1, hq2, hq3⟩ := ih (pending_after s1 r1) s2 rest
      (by rw [pending_after_getD]; exact hr1) hs2 hr2
      (by rw [pending_after_getD]; exact hw2) hc2
    refine ⟨q, ?_, hq2, ?_⟩
    · simp [feed, hstep, hq1, expected_lines_append]
    · intro hne hcs
      apply hq3
      · intro h
        have hc : c ≠ [] := hcs c (by simp)
        by_cases h1 : s1 = []
        · subst h1
          simp [pending_after] at h
          subst h
          simp [terminated_nil] at hw1
          exact hc hw1.2
        · by_cases h2 : r1 = [] <;> simp [pending_after, h1, h2] at h
      · intro c' hc'
        exact hcs c' (by simp [hc'])

theorem length_rest_le_terminated (ss : List CStr) (rest : CStr) :
    rest.length ≤ (terminated ss rest).length := by
  simp [terminated]

theorem handle_read_capped (p buf : CStr) (h : line_too_long (some p) buf = true) :
    handle_read (some p) buf = some ([], none) := by
  have h' : new_buf_size p buf > 500 * 1024 := by simpa [line_too_long] using h
  simp [handle_read, handle_read_fuel, h']

/-! ### The claims on `handle_read` -/

/-- C1, input on which the claim as stated fails: an empty chunk fed to a file without pending
buffer is newline-free text with an empty remainder, and it leaves an empty buffer in place
(`strdup("")`) where the claim has the buffer cleared. -/
theorem feed_empty_chunk_not_cleared :
    ([[]] : List CStr).flatten = terminated [] [] ∧ cap_free none [[]] = true ∧
      feed none [[]] = some (expected_lines [], some []) ∧
      feed none [[]] ≠ some (expected_lines [], if ([] : CStr) = [] then none else some []) := by
  decide

/-- C1 (amended): for every sequence of chunks fed through `handle_read` from an absent
pending buffer without the cap being hit, if the concatenation of the chunks is the given
newline-terminated segments followed by a newline-free remainder, then the lines handled
are, in order and once each, the segments with one trailing carriage return removed that are
non-empty; the pending buffer left holds exactly the remainder, and it is absent when the
remainder is empty provided no chunk is empty.  Any other split of the same text into
chunks gives the same lines and the same pending text. -/
theorem feed_line_boundaries (chunks segments : List CStr) (rest : CStr)
    (hseg : ∀ s ∈ segments, '\n' ∉ s) (hrest : '\n' ∉ rest)
    (hcat : chunks.flatten = terminated segments rest)
    (hcap : cap_free none chunks = true) :
    ∃ pending, feed none chunks = some (expected_lines segments, pending) ∧
      pending.getD [] = rest ∧
      ((∀ c ∈ chunks, c ≠ []) → pending = if rest = [] then none else some rest) ∧
      ∀ chunks', chunks'.flatten = chunks.flatten → cap_free none chunks' = true →
        ∃ pending', feed none chunks' = some (expected_lines segments, pending') ∧
          pending'.getD [] = rest := by
  obtain ⟨q, h1, h2, h3⟩ := feed_of_terminated chunks none segments rest (by simp) hseg hrest
    (by simpa using hcat) hcap
  refine ⟨q, h1, h2, h3 (by simp), ?_⟩
  intro chunks' hcat' hcap'
  obtain ⟨q', h1', h2', _⟩ := feed_of_terminated chunks' none segments rest (by simp) hseg
    hrest (by simpa [hcat'] using hcat) hcap'
  exact ⟨q', h1', h2'⟩


theorem feed_line_boundaries_witness :
    (∀ s ∈ ["ab\r".toList, "cd".toList, "\r".toList, []], '\n' ∉ s) ∧ '\n' ∉ "ef".toList ∧
      ["ab\r".toList, "\ncd\n\r\n\ne".toList, "f".toList].flatten
        = terminated ["ab\r".toList, "cd".toList, "\r".toList, []] "ef".toList ∧
      cap_free none ["ab\r".toList, "\ncd\n\r\n\ne".toList, "f".toList] = true ∧
      ∃ pending, feed none ["ab\r".toList, "\ncd\n\r\n\ne".toList, "f".toList]
          = some (expected_lines ["ab\r".toList, "cd".toList, "\r".toList, []], pending) ∧
        pending.getD [] = "ef".toList ∧
        ((∀ c ∈ ["ab\r".toList, "\ncd\n\r\n\ne".toList, "f".toList], c ≠ []) →
          pending = if "ef".toList = [] then none else some "ef".toList) ∧
        ∀ chunks', chunks'.flatten
            = ["ab\r".toList, "\ncd\n\r\n\ne".toList, "f".toList].flatten →
          cap_free none chunks' = true →
          ∃ pending', feed none chunks'
              = some (expected_lines ["ab\r".toList, "cd".toList, "\r".toList, []], pending') ∧
            pending'.getD [] = "ef".toList :=
  ⟨by decide, by decide, by decide, by decide,
    feed_line_boundaries ["ab\r".toList, "\ncd\n\r\n\ne".toList, "f".toList]
      ["ab\r".toList, "cd".toList, "\r".toList, []] "ef".toList
      (by decide) (by decide) (by decide) (by decide)⟩

/-- C2: when the file has a pending buffer and the pending text with the chunk appended is
longer than 500 KiB, `handle_read` handles no line, whatever the chunk holds, and leaves no
pending buffer; the chunks fed afterwards are processed as those of a fresh file. -/
theorem handle_read_cap_discards (p buf : CStr) (h : 500 * 1024 < p.length + buf.length) :
    handle_read (some p) buf = some ([], none) ∧
      (∀ next, (handle_read (some p) buf).bind (fun r => handle_read r.2 next)
        = handle_read none next) ∧
      ∀ chunks, feed (some p) (buf :: chunks) = feed none chunks := by
  have hcap : line_too_long (some p) buf = true := by
    simp only [line_too_long, new_buf_size, decide_eq_true_eq]; omega
  have h1 := handle_read_capped p buf hcap
  refine ⟨h1, ?_, ?_⟩
  · intro next; simp [h1]
  · intro chunks
    simp only [feed, h1]
    cases feed none chunks with
    | none => rfl
    | some r => simp


theorem handle_read_cap_discards_witness :
    500 * 1024 < (List.replicate 512000 'a').length + "b\nc\n".toList.length ∧
      handle_read (some (List.replicate 512000 'a')) "b\nc\n".toList = some ([], none) ∧
      (∀ next, (handle_read (some (List.replicate 512000 'a')) "b\nc\n".toList).bind
          (fun r => handle_read r.2 next) = handle_read none next) ∧
      ∀ chunks, feed (some (List.replicate 512000 'a')) ("b\nc\n".toList :: chunks)
        = feed none chunks :=
  ⟨by rw [List.length_replicate]; decide,
    handle_read_cap_discards (List.replicate 512000 'a') "b\nc\n".toList
      (by rw [List.length_replicate]; decide)⟩

/-- C3: from a pending buffer that is absent or at most 512000 bytes long and a chunk of at
most 512000 bytes, `handle_read` returns and leaves a pending buffer that is absent or at
most 512000 bytes long. -/
theorem handle_read_pending_bounded (pending_buf : Option CStr) (buf : CStr)
    (hp : ∀ x, pending_buf = some x → x.length ≤ 512000) (hbuf : buf.length ≤ 512000) :
    ∃ lines pending, handle_read pending_buf buf = some (lines, pending) ∧
      ∀ y, pending = some y → y.length ≤ 512000 := by
  by_cases hcap : line_too_long pending_buf buf = true
  · cases pending_buf with
    | none => simp [line_too_long] at hcap
    | some x => exact ⟨[], none, handle_read_capped x buf hcap, by simp⟩
  · have hcap' : line_too_long pending_buf buf = false := by simpa using hcap
    obtain ⟨s1, r1, hs1, hr1, hw1⟩ := exists_terminated (pending_buf.getD [] ++ buf)
    refine ⟨_, _, handle_read_of_terminated pending_buf buf s1 r1 hcap' hs1 hr1 hw1, ?_⟩
    intro y hy
    have hy' : y.length ≤ r1.length := by
      have := pending_after_getD s1 r1
      rw [hy] at this
      simp at this
      rw [this]
    have hr := length_rest_le_terminated s1 r1
    rw [← hw1, List.length_append] at hr
    cases pending_buf with
    | none => simp at hr; omega
    | some x =>
      simp [line_too_long, new_buf_size] at hcap'
      simp at hr
      omega


theorem handle_read_pending_bounded_witness :
    (∀ x, some "ab".toList = some x → x.length ≤ 512000) ∧ "c\nd".toList.length ≤ 512000 ∧
      ∃ lines pending, handle_read (some "ab".toList) "c\nd".toList = some (lines, pending) ∧
        ∀ y, pending = some y → y.length ≤ 512000 :=
  ⟨by simp, by decide,
    handle_read_pending_bounded (some "ab".toList) "c\nd".toList (by simp) (by decide)⟩

/-! ### The target loop -/

theorem target_step_sent (t : Target) (nidx : Nat) (now_check now_sent : Int) :
    (target_step t nidx now_check now_sent).2
      = !ignoring_target t.debouncing (t.last_notif_sent nidx) now_check := by
  unfold target_step
  cases ignoring_target t.debouncing (t.last_notif_sent nidx) now_check <;> simp

theorem target_step_debouncing (t : Target) (nidx : Nat) (now_check now_sent : Int) :
    (target_step t nidx now_check now_sent).1.debouncing = t.debouncing := by
  unfold target_step
  cases ignoring_target t.debouncing (t.last_notif_sent nidx) now_check <;> simp

theorem target_step_last (t : Target) (nidx : Nat) (now_check now_sent : Int) :
    (target_step t nidx now_check now_sent).1.last_notif_sent nidx
      = if ignoring_target t.debouncing (t.last_notif_sent nidx) now_check
        then t.last_notif_sent nidx else now_sent := by
  unfold target_step
  cases ignoring_target t.debouncing (t.last_notif_sent nidx) now_check <;> simp

theorem target_step_other (t : Target) (nidx j : Nat) (now_check now_sent : Int)
    (hj : j ≠ nidx) :
    (target_step t nidx now_check now_sent).1.last_notif_sent j = t.last_notif_sent j := by
  unfold target_step
  cases ignoring_target t.debouncing (t.last_notif_sent nidx) now_check <;> simp [hj]

/-- C4: in a turn of the target loop on a target whose `last_notif_sent[nidx]` is not
negative, `invoke_target` is called if and only if `last_notif_sent[nidx]` is 0, or the
debouncing value is not 0 and the time read minus `last_notif_sent[nidx]` is at least the
debouncing value.  With a debouncing of 30 and a send recorded in `last_notif_sent[nidx]`
(a value above 0), a match 10 seconds later is suppressed and a match 35 seconds later is
sent. -/
theorem send_decision (t : Target) (nidx : Nat) (now now_sent : Int)
    (hlast : 0 ≤ t.last_notif_sent nidx) :
    ((target_step t nidx now now_sent).2 = true ↔
      (t.last_notif_sent nidx = 0 ∨
        (t.debouncing ≠ 0 ∧ now - t.last_notif_sent nidx ≥ t.debouncing))) ∧
    (t.debouncing = 30 → 0 < t.last_notif_sent nidx →
      (target_step t nidx (t.last_notif_sent nidx + 10) now_sent).2 = false ∧
      (target_step t nidx (t.last_notif_sent nidx + 35) now_sent).2 = true) := by
  constructor
  · rw [target_step_sent]
    unfold ignoring_target
    by_cases h1 : t.last_notif_sent nidx > 0
    · have h0 : t.last_notif_sent nidx ≠ 0 := by omega
      by_cases h2 : t.debouncing = 0
      · simp [h1, h2, h0]
      · by_cases h3 : now - t.last_notif_sent nidx < t.debouncing
        · simp [h1, h2, h3, h0]
        · simp [h1, h2, h3, h0]
          omega
    · have h0 : t.last_notif_sent nidx = 0 := by omega
      simp [h0]
  · intro hd hpos
    rw [target_step_sent, target_step_sent]
    unfold ignoring_target
    simp [hd, hpos]

theorem send_decision_witness :
    0 ≤ (target_sent_at [] 30 3 100).last_notif_sent 3 ∧
    (((target_step (target_sent_at [] 30 3 100) 3 110 110).2 = true ↔
      ((target_sent_at [] 30 3 100).last_notif_sent 3 = 0 ∨
        ((target_sent_at [] 30 3 100).debouncing ≠ 0 ∧
          110 - (target_sent_at [] 30 3 100).last_notif_sent 3
            ≥ (target_sent_at [] 30 3 100).debouncing))) ∧
    ((target_sent_at [] 30 3 100).debouncing = 30 →
      0 < (target_sent_at [] 30 3 100).last_notif_sent 3 →
      (target_step (target_sent_at [] 30 3 100) 3
        ((target_sent_at [] 30 3 100).last_notif_sent 3 + 10) 110).2 = false ∧
      (target_step (target_sent_at [] 30 3 100) 3
        ((target_sent_at [] 30 3 100).last_notif_sent 3 + 35) 110).2 = true)) :=
  ⟨by decide, send_decision (target_sent_at [] 30 3 100) 3 110 110 (by decide)⟩

theorem matches_run_sent_before (nidx : Nat) (times : List (Int × Int)) :
    ∀ t : Target, t.debouncing = 0 → 0 < t.last_notif_sent nidx →
      (matches_run nidx t times).2 = 0 := by
  induction times with
  | nil => intro t _ _; rfl
  | cons p times ih =>
    intro t hd hl
    obtain ⟨c, s⟩ := p
    have hig : ignoring_target t.debouncing (t.last_notif_sent nidx) c = true := by
      simp [ignoring_target, hd, hl]
    have hstep : target_step t nidx c s = (t, false) := by simp [target_step, hig]
    simp [matches_run, hstep, ih t hd hl]

theorem matches_run_first (nidx : Nat) (t : Target) (c s : Int) (times : List (Int × Int))
    (hd : t.debouncing = 0) (hl : t.last_notif_sent nidx ≤ 0) (hs : 0 < s)
    : (matches_run nidx t ((c, s) :: times)).2 = 1 := by
  have hig : ignoring_target t.debouncing (t.last_notif_sent nidx) c = false := by
    have : ¬ t.last_notif_sent nidx > 0 := by omega
    simp [ignoring_target, this]
  have h2 : (target_step t nidx c s).2 = true := by rw [target_step_sent, hig]; rfl
  have h3 : 0 < (target_step t nidx c s).1.last_notif_sent nidx := by
    rw [target_step_last, hig]; simpa using hs
  have h4 := matches_run_sent_before nidx times (target_step t nidx c s).1
    (by rw [target_step_debouncing]; exact hd) h3
  simp [matches_run, h2, h4]

/-- C5, input on which the claim as stated fails: a target with a debouncing of 0 that has
never sent, and two matches at the clock values 0 and 5.  The send at clock value 0 stores 0
in `last_notif_sent`, which reads as "never sent", and the second match sends again. -/
theorem resend_after_clock_zero :
    (loaded_target [] 0).debouncing = 0 ∧ (loaded_target [] 0).last_notif_sent 0 = 0 ∧
    (0 : Int) ≤ 5 ∧ (matches_run 0 (loaded_target [] 0) [(0, 0), (5, 5)]).2 = 2 := by
  decide

/-- C5 (amended): for a target with a debouncing of 0 and every sequence of matches of one
notification whose sends are recorded at clock values of at least 1, `invoke_target` is
called at most once; exactly once when the target has not sent the notification before and
there is a match; and never when a send is already recorded. -/
theorem never_resend (nidx : Nat) (t : Target) (times : List (Int × Int))
    (hd : t.debouncing = 0) (hpos : ∀ p ∈ times, 0 < p.2) :
    (matches_run nidx t times).2 ≤ 1 ∧
    (t.last_notif_sent nidx = 0 → times ≠ [] → (matches_run nidx t times).2 = 1) ∧
    (0 < t.last_notif_sent nidx → (matches_run nidx t times).2 = 0) := by
  have hbefore := matches_run_sent_before nidx times t hd
  refine ⟨?_, ?_, hbefore⟩
  · by_cases hl : 0 < t.last_notif_sent nidx
    · rw [hbefore hl]; omega
    · cases times with
      | nil => simp [matches_run]
      | cons p times =>
        obtain ⟨c, s⟩ := p
        rw [matches_run_first nidx t c s times hd (by omega) (hpos (c, s) (by simp))]
  · intro hl hne
    cases times with
    | nil => exact absurd rfl hne
    | cons p times =>
      obtain ⟨c, s⟩ := p
      exact matches_run_first nidx t c s times hd (by omega) (hpos (c, s) (by simp))

theorem never_resend_witness :
    (loaded_target [] 0).debouncing = 0 ∧
    (∀ p ∈ [((7 : Int), (7 : Int)), (8, 8), (1000, 1000)], 0 < p.2) ∧
    ((matches_run 2 (loaded_target [] 0) [(7, 7), (8, 8), (1000, 1000)]).2 ≤ 1 ∧
    ((loaded_target [] 0).last_notif_sent 2 = 0 →
      [((7 : Int), (7 : Int)), (8, 8), (1000, 1000)] ≠ [] →
      (matches_run 2 (loaded_target [] 0) [(7, 7), (8, 8), (1000, 1000)]).2 = 1) ∧
    (0 < (loaded_target [] 0).last_notif_sent 2 →
      (matches_run 2 (loaded_target [] 0) [(7, 7), (8, 8), (1000, 1000)]).2 = 0)) :=
  ⟨rfl, by decide,
    never_resend 2 (loaded_target [] 0) [(7, 7), (8, 8), (1000, 1000)] rfl (by decide)⟩

theorem for_each_target_targets (env : LineEnv) (nidx : Nat) (f : Fields)
    (targets : List Target) :
    ∀ k, (for_each_target env nidx f k targets).1
      = (targets.enumFrom k).map (fun p =>
          (target_step p.2 nidx (env.time_check nidx p.1) (env.time_sent nidx p.1)).1) := by
  induction targets with
  | nil => intro k; rfl
  | cons t ts ih => intro k; simp [for_each_target, List.enumFrom_cons, ih (k + 1)]

theorem for_each_target_events (env : LineEnv) (nidx : Nat) (f : Fields)
    (targets : List Target) :
    ∀ k, (for_each_target env nidx f k targets).2
      = ((targets.enumFrom k).filter (fun p =>
            !ignoring_target p.2.debouncing (p.2.last_notif_sent nidx)
              (env.time_check nidx p.1))).map
          (fun p => Event.send nidx p.1 p.2.send f.title f.desc f.level
            (invoke_target (env.fork_ok nidx p.1))) := by
  induction targets with
  | nil => intro k; rfl
  | cons t ts ih =>
    intro k
    simp only [for_each_target, List.enumFrom_cons, ih (k + 1), target_step_sent,
      List.filter_cons]
    cases ignoring_target t.debouncing (t.last_notif_sent nidx) (env.time_check nidx k) <;>
      simp

theorem map_enumFrom_snd {α β : Type} (g : α → β) (l : List α) :
    ∀ k, (l.enumFrom k).map (fun p => g p.2) = l.map g := by
  induction l with
  | nil => intro k; rfl
  | cons a l ih => intro k; simp [List.enumFrom_cons, ih (k + 1)]

/-- C6: after the target loop has run for notification `nidx` with the clock reading `now`,
`last_notif_sent[nidx]` of every target is `now` if the target was not ignored and is
unchanged otherwise, and this does not depend on whether a `fork` of the send executable
succeeded; every other slot of every target is unchanged; and the calls of `invoke_target`
are those for the targets that are not ignored, which is decided from the target's own
debouncing value and its own `last_notif_sent[nidx]`. -/
theorem dispatch_state_update (env : LineEnv) (nidx : Nat) (f : Fields)
    (targets : List Target) (now : Int)
    (hclock : ∀ tidx, env.time_check nidx tidx = now ∧ env.time_sent nidx tidx = now) :
    (for_each_target env nidx f 0 targets).1.map (fun t => t.last_notif_sent nidx)
      = targets.map (fun t =>
          if ignoring_target t.debouncing (t.last_notif_sent nidx) now
          then t.last_notif_sent nidx else now) ∧
    (∀ j, j ≠ nidx →
      (for_each_target env nidx f 0 targets).1.map (fun t => t.last_notif_sent j)
        = targets.map (fun t => t.last_notif_sent j)) ∧
    (for_each_target env nidx f 0 targets).2
      = ((targets.enumFrom 0).filter (fun p =>
            !ignoring_target p.2.debouncing (p.2.last_notif_sent nidx) now)).map
          (fun p => Event.send nidx p.1 p.2.send f.title f.desc f.level
            (invoke_target (env.fork_ok nidx p.1))) ∧
    (∀ fork_ok, (for_each_target { env with fork_ok := fork_ok } nidx f 0 targets).1
      = (for_each_target env nidx f 0 targets).1) := by
  have hc : ∀ k, env.time_check nidx k = now := fun k => (hclock k).1
  have hs : ∀ k, env.time_sent nidx k = now := fun k => (hclock k).2
  refine ⟨?_, ?_, ?_, ?_⟩
  · rw [for_each_target_targets]
    simp only [List.map_map, Function.comp_def, target_step_last, hc, hs]
    exact map_enumFrom_snd
      (fun t => if ignoring_target t.debouncing (t.last_notif_sent nidx) now
        then t.last_notif_sent nidx else now) targets 0
  · intro j hj
    rw [for_each_target_targets]
    simp only [List.map_map, Function.comp_def, target_step_other _ _ _ _ _ hj]
    exact map_enumFrom_snd (fun t => t.last_notif_sent j) targets 0
  · rw [for_each_target_events]
    simp only [hc]
  · intro fork_ok
    rw [for_each_target_targets, for_each_target_targets]

theorem dispatch_state_update_witness :
    (∀ tidx, (env_at 50 (fun _ _ => proc_exits 0 [])).time_check 1 tidx = 50 ∧
      (env_at 50 (fun _ _ => proc_exits 0 [])).time_sent 1 tidx = 50) ∧
    ((for_each_target (env_at 50 (fun _ _ => proc_exits 0 [])) 1 ⟨some [], some [], none⟩ 0
        [target_sent_at [] 30 1 40, loaded_target [] 0, target_sent_at [] 0 1 5]).1.map
        (fun t => t.last_notif_sent 1)
      = [target_sent_at [] 30 1 40, loaded_target [] 0, target_sent_at [] 0 1 5].map (fun t =>
          if ignoring_target t.debouncing (t.last_notif_sent 1) 50
          then t.last_notif_sent 1 else 50) ∧
    (∀ j, j ≠ 1 →
      (for_each_target (env_at 50 (fun _ _ => proc_exits 0 [])) 1 ⟨some [], some [], none⟩ 0
        [target_sent_at [] 30 1 40, loaded_target [] 0, target_sent_at [] 0 1 5]).1.map
        (fun t => t.last_notif_sent j)
      = [target_sent_at [] 30 1 40, loaded_target [] 0, target_sent_at [] 0 1 5].map
          (fun t => t.last_notif_sent j)) ∧
    (for_each_target (env_at 50 (fun _ _ => proc_exits 0 [])) 1 ⟨some [], some [], none⟩ 0
        [target_sent_at [] 30 1 40, loaded_target [] 0, target_sent_at [] 0 1 5]).2
      = (([target_sent_at [] 30 1 40, loaded_target [] 0, target_sent_at [] 0 1 5].enumFrom
            0).filter (fun p =>
            !ignoring_target p.2.debouncing (p.2.last_notif_sent 1) 50)).map
          (fun p => Event.send 1 p.1 p.2.send (some []) (some []) none
            (invoke_target ((env_at 50 (fun _ _ => proc_exits 0 [])).fork_ok 1 p.1))) ∧
    (∀ fork_ok,
      (for_each_target { env_at 50 (fun _ _ => proc_exits 0 []) with fork_ok := fork_ok } 1
        ⟨some [], some [], none⟩ 0
        [target_sent_at [] 30 1 40, loaded_target [] 0, target_sent_at [] 0 1 5]).1
      = (for_each_target (env_at 50 (fun _ _ => proc_exits 0 [])) 1 ⟨some [], some [], none⟩ 0
        [target_sent_at [] 30 1 40, loaded_target [] 0, target_sent_at [] 0 1 5]).1)) :=
  ⟨fun _ => ⟨rfl, rfl⟩,
    dispatch_state_update (env_at 50 (fun _ _ => proc_exits 0 [])) 1 ⟨some [], some [], none⟩
      [target_sent_at [] 30 1 40, loaded_target [] 0, target_sent_at [] 0 1 5] 50
      (fun _ => ⟨rfl, rfl⟩)⟩

/-! ### The notification loop -/

theorem invoke_filter_eq (run : ProcRun) :
    invoke_filter run = LM_SUCCESS ↔ run.fork_ok = true ∧ run.wait = WaitStatus.exited 0 := by
  obtain ⟨pipe_ok, fork_ok, reads, wait⟩ := run
  cases fork_ok <;> cases wait with
  | failed => simp [invoke_filter, invoke_exec, LM_SUCCESS, LM_ERROR]
  | killed => simp [invoke_filter, invoke_exec, LM_SUCCESS, LM_ERROR]
  | exited code =>
    by_cases h : code = 0 <;> simp [invoke_filter, invoke_exec, LM_SUCCESS, LM_ERROR, h]

/-- C7: `invoke_filter` reports a match (`LM_SUCCESS`) if and only if the `fork` succeeded
and the child exited normally with code 0; on anything else `handle_line` makes no call for
the notification beyond the filter call and leaves every target as it was. -/
theorem filter_verdict (env : LineEnv) (path buf : CStr) (nidx : Nat) (notif : Notification)
    (targets : List Target) :
    (∀ run, invoke_filter run = LM_SUCCESS ↔
      run.fork_ok = true ∧ run.wait = WaitStatus.exited 0) ∧
    (¬ ((env.run nidx Field.filter).fork_ok = true ∧
        (env.run nidx Field.filter).wait = WaitStatus.exited 0) →
      handle_notification env path buf nidx notif targets
        = (targets,
            (if bound_to notif path then [Event.exec nidx Field.filter notif.filter buf]
              else []),
            false)) := by
  refine ⟨invoke_filter_eq, ?_⟩
  intro h
  have h' : ¬ invoke_filter (env.run nidx Field.filter) = LM_SUCCESS :=
    fun e => h ((invoke_filter_eq _).1 e)
  unfold handle_notification
  cases bound_to notif path <;> simp [h']

theorem filter_verdict_witness :
    ¬ (((env_at 9 (fun _ _ => proc_exits 1 [])).run 0 Field.filter).fork_ok = true ∧
        ((env_at 9 (fun _ _ => proc_exits 1 [])).run 0 Field.filter).wait
          = WaitStatus.exited 0) ∧
    handle_notification (env_at 9 (fun _ _ => proc_exits 1 [])) "/var/log/app.log".toList
        "ENOSPC".toList 0 (disk_full false false true) [loaded_target "send".toList 60]
      = ([loaded_target "send".toList 60],
          (if bound_to (disk_full false false true) "/var/log/app.log".toList
            then [Event.exec 0 Field.filter (disk_full false false true).filter "ENOSPC".toList]
            else []),
          false) :=
  ⟨by decide,
    (filter_verdict (env_at 9 (fun _ _ => proc_exits 1 [])) "/var/log/app.log".toList
      "ENOSPC".toList 0 (disk_full false false true) [loaded_target "send".toList 60]).2 (by decide)⟩

theorem filter_calls_for_each_target (env : LineEnv) (nidx : Nat) (f : Fields)
    (targets : List Target) : ∀ k, filter_calls (for_each_target env nidx f k targets).2 = [] := by
  induction targets with
  | nil => intro k; rfl
  | cons t ts ih =>
    intro k
    have := ih (k + 1)
    unfold filter_calls at this ⊢
    simp only [for_each_target, List.filterMap_append, this, List.append_nil]
    cases (target_step t nidx (env.time_check nidx k) (env.time_sent nidx k)).2 <;>
      simp [filter_call]

theorem filter_calls_resolve_events (env : LineEnv) (nidx : Nat) (notif : Notification)
    (buf : CStr) : filter_calls (resolve_events env nidx notif buf) = [] := by
  unfold filter_calls resolve_events exec_events
  cases notif.is_title_exe <;> cases notif.is_desc_exe <;> cases notif.is_level_exe <;>
    cases env.calloc_ok nidx Field.title <;> cases env.calloc_ok nidx Field.desc <;>
    cases env.calloc_ok nidx Field.level <;> simp [filter_call]

theorem filter_calls_handle_notification (env : LineEnv) (path buf : CStr) (nidx : Nat)
    (notif : Notification) (targets : List Target) :
    filter_calls (handle_notification env path buf nidx notif targets).2.1
      = if bound_to notif path then [(nidx, notif.filter, buf)] else [] := by
  unfold handle_notification
  cases bound_to notif path with
  | false => simp [filter_calls]
  | true =>
    by_cases h : invoke_filter (env.run nidx Field.filter) = LM_SUCCESS
    · have h1 := filter_calls_resolve_events env nidx notif buf
      have h2 := filter_calls_for_each_target env nidx (resolve_fields env nidx notif) targets 0
      unfold filter_calls at h1 h2 ⊢
      simp [h, filter_call, List.filterMap_append, h1, h2]
    · simp [h, filter_calls, filter_call]

/-- When `handle_line` returns (no string literal is handed to `free`), its filter calls are,
in load order and once each, those of the notifications bound to `path`, each with the line
as argument. -/
theorem filter_calls_for_each_notification (env : LineEnv) (path buf : CStr)
    (notifications : List Notification) :
    ∀ k targets, (for_each_notification env path buf k notifications targets).2.2 = false →
      filter_calls (for_each_notification env path buf k notifications targets).2.1
        = ((notifications.enumFrom k).filter (fun p => bound_to p.2 path)).map
            (fun p => (p.1, p.2.filter, buf)) := by
  induction notifications with
  | nil => intro k targets _; rfl
  | cons n ns ih =>
    intro k targets hdef
    have h1 := filter_calls_handle_notification env path buf k n targets
    cases hub : (handle_notification env path buf k n targets).2.2 with
    | true => simp [for_each_notification, hub] at hdef
    | false =>
      simp only [for_each_notification, hub] at hdef ⊢
      have h2 := ih (k + 1) (handle_notification env path buf k n targets).1 (by simpa using hdef)
      unfold filter_calls at h1 h2 ⊢
      simp only [Bool.false_eq_true, if_false, List.filterMap_append, h1, h2,
        List.enumFrom_cons, List.filter_cons]
      cases bound_to n path <;> simp

/-- A notification is bound to `path` if and only if `path` equals the path of one of its
monitored files. -/
theorem bound_to_iff (notif : Notification) (path : CStr) :
    bound_to notif path = true ↔ ∃ m ∈ notif.monitored_files, m.path = path := by
  simp [bound_to]

/-- C8, evaluation at the failing input: two notifications are bound to `/var/log/app.log`,
the filters exit with code 0 and the title executable of the first exits with code 2.
`handle_line` calls the filter and the title executable of the first notification, sends
`EXECERROR` as its title and then hands that string literal to `free`: the call ends in
undefined behaviour with one filter call made, and the filter of the second notification,
bound to the file as well, is not among the calls; the filter calls of the notifications
bound to the file are two. -/
theorem later_filter_not_reached :
    (handle_line
        (env_at 100 (fun _ f => if f = Field.title then proc_exits 2 [] else proc_exits 0 []))
        [disk_full true false false, disk_full false false false]
        [loaded_target "send".toList 60] "/var/log/app.log".toList
        "2024 ENOSPC writing block".toList).2
      = ([Event.exec 0 Field.filter "filter".toList "2024 ENOSPC writing block".toList,
            Event.exec 0 Field.title "title".toList "2024 ENOSPC writing block".toList,
            Event.send 0 0 "send".toList (some EXECERROR) (some "check disk".toList)
              (some "ERROR".toList) 0],
          true) ∧
    bound_to (disk_full false false false) "/var/log/app.log".toList = true ∧
    filter_calls
        (handle_line
          (env_at 100 (fun _ f => if f = Field.title then proc_exits 2 [] else proc_exits 0 []))
          [disk_full true false false, disk_full false false false]
          [loaded_target "send".toList 60] "/var/log/app.log".toList
          "2024 ENOSPC writing block".toList).2.1
      = [(0, "filter".toList, "2024 ENOSPC writing block".toList)] ∧
    ((([disk_full true false false, disk_full false false false].enumFrom 0).filter
          (fun p => bound_to p.2 "/var/log/app.log".toList)).map
        (fun p => (p.1, p.2.filter, "2024 ENOSPC writing block".toList))
      = [(0, "filter".toList, "2024 ENOSPC writing block".toList),
          (1, "filter".toList, "2024 ENOSPC writing block".toList)]) := by
  decide

/-! ### Field resolution -/

/-- C9, evaluation at the failing input: the notification has the literal title
`Disk full`, its level executable exits with code 1; the title passed to the send executable
is `EXECERROR` and the level pointer is `NULL`. -/
theorem literal_title_overwritten :
    (handle_line
        (env_at 100 (fun _ f => if f = Field.level then proc_exits 1 [] else proc_exits 0 []))
        [disk_full false false true] [loaded_target "send".toList 60] "/var/log/app.log".toList
        "2024 ENOSPC writing block".toList).2.1
      = [Event.exec 0 Field.filter "filter".toList "2024 ENOSPC writing block".toList,
          Event.exec 0 Field.level "level".toList "2024 ENOSPC writing block".toList,
          Event.send 0 0 "send".toList (some "EXECERROR".toList) (some "check disk".toList)
            none 0] := by
  decide

theorem resolve_text_of_exec_fails (calloc_ok : Bool) (run : ProcRun)
    (h : exec_fails calloc_ok run) : resolve_text calloc_ok run = none := by
  obtain ⟨pipe_ok, fork_ok, reads, wait⟩ := run
  unfold resolve_text
  cases calloc_ok with
  | false => rfl
  | true =>
    rcases h with h | h | h | h
    · simp at h
    · simp only at h; subst h
      simp [invoke_exec, BUFFER_SIZE, LM_SUCCESS, LM_ERROR]
    · simp only at h; subst h
      cases pipe_ok <;> simp [invoke_exec, BUFFER_SIZE, LM_SUCCESS, LM_ERROR]
    · simp only at h
      cases pipe_ok <;> cases fork_ok <;> cases wait with
      | failed => simp [invoke_exec, BUFFER_SIZE, LM_SUCCESS, LM_ERROR]
      | killed => simp [invoke_exec, BUFFER_SIZE, LM_SUCCESS, LM_ERROR]
      | exited code =>
        have hc : code ≠ 0 := fun e => h (by rw [e])
        simp [invoke_exec, BUFFER_SIZE, LM_SUCCESS, LM_ERROR, hc]

theorem exec_mem_resolve_events (env : LineEnv) (nidx : Nat) (notif : Notification)
    (buf : CStr) :
    (notif.is_title_exe = true → env.calloc_ok nidx Field.title = true →
      Event.exec nidx Field.title notif.title buf ∈ resolve_events env nidx notif buf) ∧
    (notif.is_desc_exe = true → env.calloc_ok nidx Field.desc = true →
      Event.exec nidx Field.desc notif.desc buf ∈ resolve_events env nidx notif buf) ∧
    (notif.is_level_exe = true → env.calloc_ok nidx Field.level = true →
      Event.exec nidx Field.level notif.level buf ∈ resolve_events env nidx notif buf) := by
  refine ⟨?_, ?_, ?_⟩ <;> intro h1 h2 <;> simp [resolve_events, exec_events, h1, h2]

/-- C10: for a notification bound to the file whose filter matched, when the title
executable fails (its buffer cannot be allocated, the pipe or the `fork` fails, or the child
does not exit with code 0) the title resolved is `EXECERROR` and the description and the
level are those resolved when the title is a literal; likewise for the description; the
executables of the fields are all called, and `invoke_target` is called with the resolved
fields for every target that is not ignored. -/
theorem field_fallback (env : LineEnv) (path buf : CStr) (nidx : Nat) (notif : Notification)
    (targets : List Target) (hbound : bound_to notif path = true)
    (hmatch : invoke_filter (env.run nidx Field.filter) = LM_SUCCESS) :
    (notif.is_title_exe = true →
      exec_fails (env.calloc_ok nidx Field.title) (env.run nidx Field.title) →
      (resolve_fields env nidx notif).title = some EXECERROR ∧
      (resolve_fields env nidx notif).desc
        = (resolve_fields env nidx { notif with is_title_exe := false }).desc ∧
      (resolve_fields env nidx notif).level
        = (resolve_fields env nidx { notif with is_title_exe := false }).level) ∧
    (notif.is_desc_exe = true →
      exec_fails (env.calloc_ok nidx Field.desc) (env.run nidx Field.desc) →
      (resolve_fields env nidx notif).desc = some EXECERROR ∧
      (resolve_fields env nidx notif).title
        = (resolve_fields env nidx { notif with is_desc_exe := false }).title ∧
      (resolve_fields env nidx notif).level
        = (resolve_fields env nidx { notif with is_desc_exe := false }).level) ∧
    (handle_notification env path buf nidx notif targets).2.1
      = Event.exec nidx Field.filter notif.filter buf :: resolve_events env nidx notif buf ++
        ((targets.enumFrom 0).filter (fun p =>
            !ignoring_target p.2.debouncing (p.2.last_notif_sent nidx)
              (env.time_check nidx p.1))).map
          (fun p => Event.send nidx p.1 p.2.send (resolve_fields env nidx notif).title
            (resolve_fields env nidx notif).desc (resolve_fields env nidx notif).level
            (invoke_target (env.fork_ok nidx p.1))) ∧
    (notif.is_title_exe = true → env.calloc_ok nidx Field.title = true →
      Event.exec nidx Field.title notif.title buf ∈ resolve_events env nidx notif buf) ∧
    (notif.is_desc_exe = true → env.calloc_ok nidx Field.desc = true →
      Event.exec nidx Field.desc notif.desc buf ∈ resolve_events env nidx notif buf) ∧
    (notif.is_level_exe = true → env.calloc_ok nidx Field.level = true →
      Event.exec nidx Field.level notif.level buf ∈ resolve_events env nidx notif buf) := by
  refine ⟨?_, ?_, ?_, exec_mem_resolve_events env nidx notif buf⟩
  · intro hexe hfail
    have h := resolve_text_of_exec_fails _ _ hfail
    refine ⟨?_, ?_, ?_⟩
    · unfold resolve_fields
      simp only [hexe, h, if_true]
      split <;> (try split) <;> rfl
    · unfold resolve_fields
      simp only
      split <;> (try split) <;> rfl
    · unfold resolve_fields
      simp only
      split <;> (try split) <;> rfl
  · intro hexe hfail
    have h := resolve_text_of_exec_fails _ _ hfail
    refine ⟨?_, ?_, ?_⟩
    · unfold resolve_fields
      simp only [hexe, h, if_true]
      split <;> (try split) <;> rfl
    · unfold resolve_fields
      simp only
      split <;> (try split) <;> rfl
    · unfold resolve_fields
      simp only
      split <;> (try split) <;> rfl
  · unfold handle_notification
    simp only [hbound, hmatch, Bool.not_true, if_true]
    rw [for_each_target_events]
    simp

theorem field_fallback_witness :
    bound_to (disk_full true false false) "/var/log/app.log".toList = true ∧
    invoke_filter ((env_at 100 (fun _ f =>
        if f = Field.title then proc_exits 2 [] else proc_exits 0 [])).run 0 Field.filter)
      = LM_SUCCESS ∧
    (disk_full true false false).is_title_exe = true ∧
    exec_fails
      ((env_at 100 (fun _ f =>
        if f = Field.title then proc_exits 2 [] else proc_exits 0 [])).calloc_ok 0 Field.title)
      ((env_at 100 (fun _ f =>
        if f = Field.title then proc_exits 2 [] else proc_exits 0 [])).run 0 Field.title) ∧
    ((resolve_fields (env_at 100 (fun _ f =>
        if f = Field.title then proc_exits 2 [] else proc_exits 0 [])) 0
        (disk_full true false false)).title = some EXECERROR ∧
      (resolve_fields (env_at 100 (fun _ f =>
        if f = Field.title then proc_exits 2 [] else proc_exits 0 [])) 0
        (disk_full true false false)).desc
        = (resolve_fields (env_at 100 (fun _ f =>
            if f = Field.title then proc_exits 2 [] else proc_exits 0 [])) 0
            { disk_full true false false with is_title_exe := false }).desc ∧
      (resolve_fields (env_at 100 (fun _ f =>
        if f = Field.title then proc_exits 2 [] else proc_exits 0 [])) 0
        (disk_full true false false)).level
        = (resolve_fields (env_at 100 (fun _ f =>
            if f = Field.title then proc_exits 2 [] else proc_exits 0 [])) 0
            { disk_full true false false with is_title_exe := false }).level) :=
  ⟨by decide, by decide, rfl, Or.inr (Or.inr (Or.inr (by decide))),
    (field_fallback (env_at 100 (fun _ f =>
        if f = Field.title then proc_exits 2 [] else proc_exits 0 []))
      "/var/log/app.log".toList "ENOSPC".toList 0 (disk_full true false false)
      [loaded_target "send".toList 60] (by decide) (by decide)).1 rfl
      (Or.inr (Or.inr (Or.inr (by decide))))⟩

/-- C11, evaluation at a failing input: the title executable prints `Disk almost full`, the
level executable prints `CRITICAL` and both exit with code 0.  The call of `invoke_target`
has the title `EXECERROR` and a `NULL` level, and the send executable receives two
arguments after its own path. -/
theorem invalid_level_dispatch :
    (handle_line
        (env_at 100 (fun _ f =>
          if f = Field.title then proc_exits 0 "Disk almost full\n".toList
          else if f = Field.level then proc_exits 0 "CRITICAL\n".toList
          else proc_exits 0 []))
        [disk_full true false true] [loaded_target "send".toList 60] "/var/log/app.log".toList
        "2024 ENOSPC writing block".toList).2.1
      = [Event.exec 0 Field.filter "filter".toList "2024 ENOSPC writing block".toList,
          Event.exec 0 Field.title "title".toList "2024 ENOSPC writing block".toList,
          Event.exec 0 Field.level "level".toList "2024 ENOSPC writing block".toList,
          Event.send 0 0 "send".toList (some "EXECERROR".toList) (some "check disk".toList)
            none 0] ∧
    (handle_line
        (env_at 100 (fun _ f =>
          if f = Field.title then proc_exits 0 "Disk almost full\n".toList
          else if f = Field.level then proc_exits 0 "CRITICAL\n".toList
          else proc_exits 0 []))
        [disk_full true false true] [loaded_target "send".toList 60] "/var/log/app.log".toList
        "2024 ENOSPC writing block".toList).2.1.filterMap send_argv
      = [["send".toList, "EXECERROR".toList, "check disk".toList]] := by
  decide

/-- C12, input on which the claim as stated fails: the title executable exits with code 0
and prints nothing; the title passed to `invoke_target` is the empty string, not
`EXECERROR`. -/
theorem empty_title_dispatched :
    (handle_line (env_at 100 (fun _ _ => proc_exits 0 []))
        [disk_full true false false] [loaded_target "send".toList 60] "/var/log/app.log".toList
        "2024 ENOSPC writing block".toList).2.1
      = [Event.exec 0 Field.filter "filter".toList "2024 ENOSPC writing block".toList,
          Event.exec 0 Field.title "title".toList "2024 ENOSPC writing block".toList,
          Event.send 0 0 "send".toList (some []) (some "check disk".toList)
            (some "ERROR".toList) 0] ∧
    (some [] : Option CStr) ≠ some EXECERROR := by
  decide

theorem invoke_exec_of_exited (run : ProcRun) (data : List Char)
    (hpipe : run.pipe_ok = true) (hfork : run.fork_ok = true)
    (hwait : run.wait = WaitStatus.exited 0)
    (hread : full_read run.reads (BUFFER_SIZE - 1) = some data) :
    (invoke_exec run true BUFFER_SIZE).retval = LM_SUCCESS ∧
    (invoke_exec run true BUFFER_SIZE).exit_code = some 0 ∧
    (invoke_exec run true BUFFER_SIZE).output = c_string data := by
  obtain ⟨pipe_ok, fork_ok, reads, wait⟩ := run
  simp only at hpipe hfork hwait hread
  subst hpipe hfork hwait
  simp [invoke_exec, hread, LM_SUCCESS, BUFFER_SIZE] at hread ⊢

/-- C12 (amended): when a field executable exits with code 0 and prints no output or an
empty first line, the title or description resolved from it is the empty string, not the
sentinel: it is the description passed to the targets, and the title passed when the level
resolution does not fail; as a level, such output is a resolution failure. -/
theorem empty_output_resolution (run : ProcRun) (data : List Char)
    (hpipe : run.pipe_ok = true) (hfork : run.fork_ok = true)
    (hwait : run.wait = WaitStatus.exited 0)
    (hread : full_read run.reads (BUFFER_SIZE - 1) = some data)
    (hempty : terminate_str_at_first_eol (c_string data) = []) :
    resolve_text true run = some [] ∧ resolve_level true run = none ∧
    ∀ (env : LineEnv) (nidx : Nat) (notif : Notification),
      (notif.is_desc_exe = true → env.calloc_ok nidx Field.desc = true →
        env.run nidx Field.desc = run → (resolve_fields env nidx notif).desc = some []) ∧
      (notif.is_title_exe = true → env.calloc_ok nidx Field.title = true →
        env.run nidx Field.title = run →
        (notif.is_level_exe = false ∨
          resolve_level (env.calloc_ok nidx Field.level) (env.run nidx Field.level) ≠ none) →
        (resolve_fields env nidx notif).title = some []) := by
  obtain ⟨h1, h2, h3⟩ := invoke_exec_of_exited run data hpipe hfork hwait hread
  have ht : resolve_text true run = some [] := by
    simp [resolve_text, h1, h2, h3, hempty]
  have hl : resolve_level true run = none := by
    simp [resolve_level, h1, h2, h3, hempty]
  refine ⟨ht, hl, ?_⟩
  intro env nidx notif
  constructor
  · intro hexe hc hrun
    unfold resolve_fields
    simp only [hexe, hc, hrun, ht, if_true]
    split <;> (try split) <;> rfl
  · intro hexe hc hrun hlevel
    unfold resolve_fields
    simp only [hexe, hc, hrun, ht, if_true]
    rcases hlevel with hlevel | hlevel
    · simp [hlevel]
    · split
      · split
        · rfl
        · rename_i hnone
          exact absurd hnone hlevel
      · rfl

theorem empty_output_resolution_witness :
    (proc_exits 0 "\nsecond line".toList).pipe_ok = true ∧
    (proc_exits 0 "\nsecond line".toList).fork_ok = true ∧
    (proc_exits 0 "\nsecond line".toList).wait = WaitStatus.exited 0 ∧
    full_read (proc_exits 0 "\nsecond line".toList).reads (BUFFER_SIZE - 1)
      = some "\nsecond line".toList ∧
    terminate_str_at_first_eol (c_string "\nsecond line".toList) = [] ∧
    resolve_text true (proc_exits 0 "\nsecond line".toList) = some [] ∧
    resolve_level true (proc_exits 0 "\nsecond line".toList) = none :=
  ⟨rfl, rfl, rfl, by decide, by decide,
    (empty_output_resolution (proc_exits 0 "\nsecond line".toList) "\nsecond line".toList
      rfl rfl rfl (by decide) (by decide)).1,
    (empty_output_resolution (proc_exits 0 "\nsecond line".toList) "\nsecond line".toList
      rfl rfl rfl (by decide) (by decide)).2.1⟩

/-! ### `terminate_str_at_first_eol` -/

theorem terminate_eq_takeWhile (s : CStr) :
    terminate_str_at_first_eol s = s.takeWhile (fun c => !is_eol c) := by
  induction s with
  | nil => rfl
  | cons c cs ih =>
    by_cases h : c = '\n' ∨ c = '\r'
    · have he : is_eol c = true := decide_eq_true h
      rw [terminate_str_at_first_eol, if_pos h, List.takeWhile_cons]
      simp [he]
    · have he : is_eol c = false := decide_eq_false h
      rw [terminate_str_at_first_eol, if_neg h, List.takeWhile_cons, ih]
      simp [he]

theorem terminate_no_eol (s : CStr) :
    ∀ c ∈ terminate_str_at_first_eol s, c ≠ '\n' ∧ c ≠ '\r' := by
  induction s with
  | nil => intro c hc; simp [terminate_str_at_first_eol] at hc
  | cons a cs ih =>
    intro c hc
    by_cases h : a = '\n' ∨ a = '\r'
    · simp [terminate_str_at_first_eol, h] at hc
    · simp only [terminate_str_at_first_eol, h, if_false, List.mem_cons] at hc
      rcases hc with hc | hc
      · subst hc
        exact ⟨fun e => h (Or.inl e), fun e => h (Or.inr e)⟩
      · exact ih c hc

theorem terminate_of_no_eol (s : CStr) (h : ∀ c ∈ s, c ≠ '\n' ∧ c ≠ '\r') :
    terminate_str_at_first_eol s = s := by
  induction s with
  | nil => rfl
  | cons a cs ih =>
    have ha : ¬ (a = '\n' ∨ a = '\r') := by
      have := h a (by simp)
      tauto
    simp [terminate_str_at_first_eol, ha, ih (fun c hc => h c (by simp [hc]))]

theorem terminate_longest (s : CStr) :
    ∀ p : CStr, p <+: s → (∀ c ∈ p, c ≠ '\n' ∧ c ≠ '\r') →
      p.length ≤ (terminate_str_at_first_eol s).length := by
  induction s with
  | nil =>
    intro p hp _
    have : p = [] := List.prefix_nil.1 hp
    simp [this]
  | cons a cs ih =>
    intro p hp hno
    cases p with
    | nil => simp
    | cons b p =>
      obtain ⟨hab, hp'⟩ := List.cons_prefix_cons.1 hp
      subst hab
      have hb : ¬ (b = '\n' ∨ b = '\r') := by
        have := hno b (by simp)
        tauto
      have := ih p hp' (fun c hc => hno c (by simp [hc]))
      simp [terminate_str_at_first_eol, hb]
      exact this

/-- C13: for every string, `terminate_str_at_first_eol` leaves the longest prefix of the
string that holds neither a newline nor a carriage return, the string itself when it holds
neither; the result holds no end-of-line character, and a second application changes
nothing. -/
theorem first_line_extraction (s : CStr) :
    terminate_str_at_first_eol s <+: s ∧
    (∀ c ∈ terminate_str_at_first_eol s, c ≠ '\n' ∧ c ≠ '\r') ∧
    (∀ p : CStr, p <+: s → (∀ c ∈ p, c ≠ '\n' ∧ c ≠ '\r') →
      p.length ≤ (terminate_str_at_first_eol s).length) ∧
    ((∀ c ∈ s, c ≠ '\n' ∧ c ≠ '\r') → terminate_str_at_first_eol s = s) ∧
    terminate_str_at_first_eol (terminate_str_at_first_eol s)
      = terminate_str_at_first_eol s := by
  refine ⟨?_, terminate_no_eol s, terminate_longest s, terminate_of_no_eol s,
    terminate_of_no_eol _ (terminate_no_eol s)⟩
  rw [terminate_eq_takeWhile]
  exact List.takeWhile_prefix _

theorem first_line_extraction_witness :
    terminate_str_at_first_eol "Disk full\r\nmore".toList <+: "Disk full\r\nmore".toList ∧
    terminate_str_at_first_eol "Disk full\r\nmore".toList = "Disk full".toList ∧
    terminate_str_at_first_eol (terminate_str_at_first_eol "Disk full\r\nmore".toList)
      = terminate_str_at_first_eol "Disk full\r\nmore".toList :=
  ⟨(first_line_extraction "Disk full\r\nmore".toList).1, by decide,
    (first_line_extraction "Disk full\r\nmore".toList).2.2.2.2⟩

/-! ### The file tracker -/

/-- C14, what holds and the evaluation at the failing input.  At startup a log file that
opens gets its read offset at the size of the file and a status file keeps the offset 0.
In the poll loop the descriptor that the reopen block gives has the read offset 0, whatever
the kind of the file (no `lseek` follows the `open`): a log file whose path was replaced by
a new file holding the 9 bytes `old line` and a newline has its first read issued at
offset 0, and the 9 bytes are passed to `handle_read`. -/
theorem reopened_log_read_from_start :
    (∀ (mf : MonitoredFile) (size : Nat),
      (mf.is_status = false →
        (open_monitored_file mf (some size)).fd = some { offset := size }) ∧
      (mf.is_status = true →
        (open_monitored_file mf (some size)).fd = some { offset := 0 })) ∧
    (∀ (fd : Option Handle) (env : TickEnv) (h : Handle),
      needs_reopen fd env = true → (reopen fd env).1 = some h → h.offset = 0) ∧
    (poll_file 8192
        (tick_env { st_dev := 1, st_ino := 2, st_size := 9, st_mtime := 99 }
          { st_dev := 1, st_ino := 1, st_size := 120, st_mtime := 50 } "old line\n".toList)
        (app_log false (some { offset := 120 }))).2
      = [TickEvent.close, TickEvent.open true 9, TickEvent.read 0 (some 9),
          TickEvent.handle_read "old line\n".toList, TickEvent.read 9 (some 9)] := by
  refine ⟨?_, ?_, by decide⟩
  · intro mf size
    constructor <;> intro h <;> simp [open_monitored_file, h]
  · intro fd env h hn hr
    unfold reopen at hr
    rw [if_pos hn] at hr
    cases ho : env.opened with
    | none => simp [ho] at hr
    | some size =>
      simp only [ho, Option.some.injEq] at hr
      rw [← hr]

theorem needs_reopen_iff (fd : Option Handle) (env : TickEnv) :
    needs_reopen fd env = true ↔
      (fd = none ∨ env.fstat_fd = none ∨ env.stat_path = none ∨
        ∃ fsbuf sbuf, env.fstat_fd = some fsbuf ∧ env.stat_path = some sbuf ∧
          (fsbuf.st_dev ≠ sbuf.st_dev ∨ fsbuf.st_ino ≠ sbuf.st_ino)) := by
  unfold needs_reopen
  cases fd with
  | none => simp
  | some h =>
    cases h1 : env.fstat_fd with
    | none => simp
    | some fsbuf =>
      cases h2 : env.stat_path with
      | none => simp
      | some sbuf => simp

theorem read_calls_reopen (fd : Option Handle) (env : TickEnv) :
    read_calls (reopen fd env).2 = [] := by
  unfold reopen read_calls
  cases needs_reopen fd env <;> cases fd <;> simp

theorem tick_open_fd (bufsiz : Nat) (env : TickEnv) (mf : MonitoredFile) (h : Handle)
    (done : List TickEvent) : (tick_open bufsiz env mf h done).1.fd ≠ none := by
  unfold tick_open
  dsimp only
  split_ifs <;> simp

/-- C15: in a tick that is not cut short by the status file interval, the path is opened
anew (after the old descriptor, if any, is closed) if no descriptor is held, or `stat` on
the path failed, or the device or the inode that `fstat` gives for the descriptor differs
from that of the path, and also if that `fstat` fails; with a descriptor held whose device
and inode both match those of the path, the descriptor is kept and nothing is done.  The
rest of the tick is skipped if and only if no descriptor is held after this. -/
theorem reopen_decision (bufsiz : Nat) (env : TickEnv) (mf : MonitoredFile)
    (hgo : (mf.is_status &&
      decide (env.now_check - mf.last_read < STATUS_FILE_READ_INTERVAL)) = false) :
    (needs_reopen mf.fd env = true ↔
      (mf.fd = none ∨ env.fstat_fd = none ∨ env.stat_path = none ∨
        ∃ fsbuf sbuf, env.fstat_fd = some fsbuf ∧ env.stat_path = some sbuf ∧
          (fsbuf.st_dev ≠ sbuf.st_dev ∨ fsbuf.st_ino ≠ sbuf.st_ino))) ∧
    (needs_reopen mf.fd env = true →
      reopen mf.fd env
        = (env.opened.map (fun _ => ({ offset := 0 } : Handle)),
            (if mf.fd.isSome then [TickEvent.close] else []) ++
              [TickEvent.open env.opened.isSome (env.opened.getD 0)])) ∧
    (∀ h fsbuf sbuf, mf.fd = some h → env.fstat_fd = some fsbuf → env.stat_path = some sbuf →
      fsbuf.st_dev = sbuf.st_dev → fsbuf.st_ino = sbuf.st_ino →
      reopen mf.fd env = (some h, [])) ∧
    ((reopen mf.fd env).1 = none →
      poll_file bufsiz env mf = ({ mf with fd := none }, (reopen mf.fd env).2)) ∧
    (∀ h, (reopen mf.fd env).1 = some h →
      poll_file bufsiz env mf = tick_open bufsiz env mf h (reopen mf.fd env).2) ∧
    ((poll_file bufsiz env mf).1.fd = none ↔ (reopen mf.fd env).1 = none) := by
  refine ⟨needs_reopen_iff mf.fd env, ?_, ?_, ?_, ?_, ?_⟩
  · intro h
    unfold reopen
    rw [if_pos h]
    cases env.opened <;> rfl
  · intro h fsbuf sbuf h1 h2 h3 h4 h5
    unfold reopen needs_reopen
    simp [h1, h2, h3, h4, h5]
  · intro h
    unfold poll_file
    rw [hgo]
    simp [h]
  · intro h hh
    unfold poll_file
    rw [hgo]
    simp [hh]
  · unfold poll_file
    rw [hgo]
    simp only [Bool.false_eq_true, if_false]
    cases hr : (reopen mf.fd env).1 with
    | none => simp
    | some h =>
      simp only [reduceCtorEq, iff_false]
      exact tick_open_fd bufsiz env mf h _

theorem reopen_decision_witness :
    ((app_log false (some { offset := 120 })).is_status &&
      decide ((tick_env { st_dev := 1, st_ino := 2, st_size := 9, st_mtime := 99 }
          { st_dev := 1, st_ino := 1, st_size := 120, st_mtime := 50 }
          "old line\n".toList).now_check
        - (app_log false (some { offset := 120 })).last_read
          < STATUS_FILE_READ_INTERVAL)) = false ∧
    needs_reopen (app_log false (some { offset := 120 })).fd
      (tick_env { st_dev := 1, st_ino := 2, st_size := 9, st_mtime := 99 }
        { st_dev := 1, st_ino := 1, st_size := 120, st_mtime := 50 }
        "old line\n".toList) = true ∧
    reopen (app_log false (some { offset := 120 })).fd
        (tick_env { st_dev := 1, st_ino := 2, st_size := 9, st_mtime := 99 }
          { st_dev := 1, st_ino := 1, st_size := 120, st_mtime := 50 } "old line\n".toList)
      = ((tick_env { st_dev := 1, st_ino := 2, st_size := 9, st_mtime := 99 }
            { st_dev := 1, st_ino := 1, st_size := 120, st_mtime := 50 }
            "old line\n".toList).opened.map (fun _ => ({ offset := 0 } : Handle)),
          (if (app_log false (some { offset := 120 })).fd.isSome then [TickEvent.close]
            else []) ++
            [TickEvent.open
              (tick_env { st_dev := 1, st_ino := 2, st_size := 9, st_mtime := 99 }
                { st_dev := 1, st_ino := 1, st_size := 120, st_mtime := 50 }
                "old line\n".toList).opened.isSome
              ((tick_env { st_dev := 1, st_ino := 2, st_size := 9, st_mtime := 99 }
                { st_dev := 1, st_ino := 1, st_size := 120, st_mtime := 50 }
                "old line\n".toList).opened.getD 0)]) :=
  ⟨by decide, by decide,
    (reopen_decision 8192
      (tick_env { st_dev := 1, st_ino := 2, st_size := 9, st_mtime := 99 }
        { st_dev := 1, st_ino := 1, st_size := 120, st_mtime := 50 } "old line\n".toList)
      (app_log false (some { offset := 120 })) (by decide)).2.1 (by decide)⟩

theorem status_unchanged_iff (sbuf last_stat : Stat) :
    status_unchanged sbuf last_stat = true ↔
      (sbuf.st_size = last_stat.st_size ∧ sbuf.st_mtime = last_stat.st_mtime ∧
        sbuf.st_dev = last_stat.st_dev ∧ sbuf.st_ino = last_stat.st_ino) := by
  unfold status_unchanged
  by_cases h1 : sbuf.st_size = last_stat.st_size <;>
    by_cases h2 : sbuf.st_mtime = last_stat.st_mtime <;>
    by_cases h3 : sbuf.st_dev = last_stat.st_dev <;>
    by_cases h4 : sbuf.st_ino = last_stat.st_ino <;> simp [h1, h2, h3, h4]

theorem stat_eq_of_fields (a b : Stat)
    (h : a.st_size = b.st_size ∧ a.st_mtime = b.st_mtime ∧ a.st_dev = b.st_dev ∧
      a.st_ino = b.st_ino) : a = b := by
  cases a; cases b
  simp only [Stat.mk.injEq] at h ⊢
  exact ⟨h.2.2.1, h.2.2.2, h.1, h.2.1⟩

theorem read_loop_from_zero (bufsiz : Nat) (turn : ReadTurn) (turns : List ReadTurn) :
    ∃ rest, (read_loop bufsiz (turn :: turns) 0).2 = TickEvent.read 0 turn.fstat_size :: rest := by
  have hg : truncation_guard turn.fstat_size 0 = 0 := by
    unfold truncation_guard
    cases turn.fstat_size <;> simp
  unfold read_loop
  rw [hg]
  cases full_read turn.reads bufsiz with
  | none => exact ⟨[], rfl⟩
  | some data =>
    by_cases hd : data.length = 0
    · exact ⟨[], by simp [hd]⟩
    · exact ⟨TickEvent.handle_read (c_string data)
        :: (read_loop bufsiz turns (0 + data.length)).2, by simp [hd]⟩

theorem poll_file_same (bufsiz : Nat) (env : TickEnv) (mf : MonitoredFile) (sbuf : Stat)
    (hstatus : mf.is_status = true) (hstat : env.stat_path = some sbuf)
    (hsame : status_unchanged sbuf mf.last_stat = true) :
    read_calls (poll_file bufsiz env mf).2 = [] := by
  unfold poll_file
  split
  · rfl
  · dsimp only
    split
    · exact read_calls_reopen mf.fd env
    · simp only [tick_open, hstatus, hstat, hsame, Bool.and_self, if_true]
      exact read_calls_reopen mf.fd env

/-- C16: for a status file whose tick reaches the change test with a descriptor and a
successful `stat` of the path: if size, modification time, device and inode all equal the
recorded snapshot, the tick reads nothing, keeps the snapshot and stores the current time in
`last_read`; if one of them differs, the snapshot becomes the new `stat` and the file is
read from offset 0.  A following tick whose `stat` gives the same four values reads
nothing. -/
theorem status_change_suppression (bufsiz : Nat) (env : TickEnv) (mf : MonitoredFile)
    (h : Handle) (sbuf : Stat) (hstatus : mf.is_status = true)
    (hgo : decide (env.now_check - mf.last_read < STATUS_FILE_READ_INTERVAL) = false)
    (hfd : (reopen mf.fd env).1 = some h) (hstat : env.stat_path = some sbuf) :
    ((sbuf.st_size = mf.last_stat.st_size ∧ sbuf.st_mtime = mf.last_stat.st_mtime ∧
        sbuf.st_dev = mf.last_stat.st_dev ∧ sbuf.st_ino = mf.last_stat.st_ino) →
      poll_file bufsiz env mf
        = ({ mf with fd := some h, last_read := env.now_same }, (reopen mf.fd env).2) ∧
      read_calls (poll_file bufsiz env mf).2 = []) ∧
    (¬ (sbuf.st_size = mf.last_stat.st_size ∧ sbuf.st_mtime = mf.last_stat.st_mtime ∧
        sbuf.st_dev = mf.last_stat.st_dev ∧ sbuf.st_ino = mf.last_stat.st_ino) →
      (poll_file bufsiz env mf).1.last_stat = sbuf ∧
      (poll_file bufsiz env mf).2 = (reopen mf.fd env).2 ++ (read_loop bufsiz env.turns 0).2 ∧
      ∀ turn turns, env.turns = turn :: turns →
        ∃ rest, (read_loop bufsiz env.turns 0).2
          = TickEvent.read 0 turn.fstat_size :: rest) ∧
    (∀ (env2 : TickEnv) (sbuf2 : Stat), env2.stat_path = some sbuf2 →
      (sbuf2.st_size = sbuf.st_size ∧ sbuf2.st_mtime = sbuf.st_mtime ∧
        sbuf2.st_dev = sbuf.st_dev ∧ sbuf2.st_ino = sbuf.st_ino) →
      read_calls (poll_file bufsiz env2 (poll_file bufsiz env mf).1).2 = []) := by
  have hpoll : poll_file bufsiz env mf = tick_open bufsiz env mf h (reopen mf.fd env).2 := by
    unfold poll_file
    simp [hstatus, hgo, hfd]
  refine ⟨?_, ?_, ?_⟩
  · intro hsame
    have hs := (status_unchanged_iff sbuf mf.last_stat).2 hsame
    have : poll_file bufsiz env mf
        = ({ mf with fd := some h, last_read := env.now_same }, (reopen mf.fd env).2) := by
      rw [hpoll]
      simp [tick_open, hstatus, hstat, hs]
    exact ⟨this, poll_file_same bufsiz env mf sbuf hstatus hstat hs⟩
  · intro hdiff
    have hs : status_unchanged sbuf mf.last_stat = false := by
      cases hc : status_unchanged sbuf mf.last_stat with
      | false => rfl
      | true => exact absurd ((status_unchanged_iff sbuf mf.last_stat).1 hc) hdiff
    refine ⟨?_, ?_, ?_⟩
    · rw [hpoll]; simp [tick_open, hstatus, hstat, hs]
    · rw [hpoll]; simp [tick_open, hstatus, hstat, hs]
    · intro turn turns ht
      rw [ht]
      exact read_loop_from_zero bufsiz turn turns
  · intro env2 sbuf2 hstat2 heq
    have h1 : (poll_file bufsiz env mf).1.is_status = true := by
      rw [hpoll]; unfold tick_open; dsimp only; split_ifs <;> simp [hstatus]
    have h2 : (poll_file bufsiz env mf).1.last_stat = sbuf := by
      rw [hpoll]
      cases hc : status_unchanged sbuf mf.last_stat with
      | false => simp [tick_open, hstatus, hstat, hc]
      | true =>
        simp only [tick_open, hstatus, hstat, hc, Bool.and_self, if_true]
        exact (stat_eq_of_fields sbuf mf.last_stat
          ((status_unchanged_iff sbuf mf.last_stat).1 hc)).symm
    apply poll_file_same bufsiz env2 _ sbuf2 h1 hstat2
    rw [h2]
    exact (status_unchanged_iff sbuf2 sbuf).2 heq

theorem status_change_suppression_witness :
    (app_log true (some { offset := 0 })).is_status = true ∧
    decide ((tick_env (stat_of 7 5 90) (stat_of 7 5 90) "up\n".toList).now_check
      - (app_log true (some { offset := 0 })).last_read < STATUS_FILE_READ_INTERVAL) = false ∧
    (reopen (app_log true (some { offset := 0 })).fd
      (tick_env (stat_of 7 5 90) (stat_of 7 5 90) "up\n".toList)).1 = some { offset := 0 } ∧
    (tick_env (stat_of 7 5 90) (stat_of 7 5 90) "up\n".toList).stat_path
      = some (stat_of 7 5 90) ∧
    ((stat_of 7 5 90).st_size = (stat_of 7 5 90).st_size ∧
      (stat_of 7 5 90).st_mtime = (stat_of 7 5 90).st_mtime ∧
      (stat_of 7 5 90).st_dev = (stat_of 7 5 90).st_dev ∧
      (stat_of 7 5 90).st_ino = (stat_of 7 5 90).st_ino) ∧
    read_calls (poll_file 8192 (tick_env (stat_of 7 5 90) (stat_of 7 5 90) "up\n".toList)
      (poll_file 8192 (tick_env (stat_of 7 5 90) (stat_of 7 5 90) "up\n".toList)
        (app_log true (some { offset := 0 }))).1).2 = [] :=
  ⟨rfl, by decide, by decide, rfl, ⟨rfl, rfl, rfl, rfl⟩,
    (status_change_suppression 8192 (tick_env (stat_of 7 5 90) (stat_of 7 5 90) "up\n".toList)
      (app_log true (some { offset := 0 })) { offset := 0 } (stat_of 7 5 90) rfl (by decide)
      (by decide) rfl).2.2 (tick_env (stat_of 7 5 90) (stat_of 7 5 90) "up\n".toList)
      (stat_of 7 5 90) rfl ⟨rfl, rfl, rfl, rfl⟩⟩

theorem truncation_guard_le (size current : Nat) :
    truncation_guard (some size) current ≤ size := by
  unfold truncation_guard
  by_cases h : size < current
  · simp [h]
  · simp only [h, if_false]; omega

theorem read_loop_offsets (bufsiz : Nat) (turns : List ReadTurn) :
    ∀ offset off size, TickEvent.read off (some size) ∈ (read_loop bufsiz turns offset).2 →
      off ≤ size := by
  induction turns with
  | nil => intro offset off size h; simp [read_loop] at h
  | cons turn turns ih =>
    intro offset off size h
    have hhead : TickEvent.read off (some size)
        = TickEvent.read (truncation_guard turn.fstat_size offset) turn.fstat_size →
        off ≤ size := by
      intro e
      injection e with e1 e2
      rw [e1, ← e2]
      exact truncation_guard_le size offset
    unfold read_loop at h
    cases hr : full_read turn.reads bufsiz with
    | none =>
      simp only [hr, List.mem_singleton] at h
      exact hhead h
    | some data =>
      by_cases hd : data.length = 0
      · simp only [hr, hd, if_true, List.mem_singleton] at h
        exact hhead h
      · simp only [hr, hd, if_false, List.mem_cons] at h
        rcases h with h | h | h
        · exact hhead h
        · cases h
        · exact ih _ off size h

/-- C17: in every turn of the read loop, the read is issued after the truncation check:
when the size that `fstat` gives for the descriptor is smaller than the read offset the
offset becomes 0, and otherwise it is left as it is; so every read that follows a
successful `fstat` is issued at an offset that is at most the size observed. -/
theorem truncation_guard_before_read (bufsiz : Nat) (turns : List ReadTurn) (offset : Nat) :
    (∀ size current,
      truncation_guard (some size) current = if size < current then 0 else current) ∧
    (∀ current, truncation_guard none current = current) ∧
    (∀ turn later, turns = turn :: later →
      ∃ rest, (read_loop bufsiz turns offset).2
        = TickEvent.read (truncation_guard turn.fstat_size offset) turn.fstat_size :: rest) ∧
    (∀ off size, TickEvent.read off (some size) ∈ (read_loop bufsiz turns offset).2 →
      off ≤ size) := by
  refine ⟨fun _ _ => rfl, fun _ => rfl, ?_, read_loop_offsets bufsiz turns offset⟩
  intro turn later ht
  subst ht
  unfold read_loop
  cases full_read turn.reads bufsiz with
  | none => exact ⟨[], rfl⟩
  | some data =>
    by_cases hd : data.length = 0
    · exact ⟨[], by simp [hd]⟩
    · exact ⟨TickEvent.handle_read (c_string data)
        :: (read_loop bufsiz later
            (truncation_guard turn.fstat_size offset + data.length)).2, by simp [hd]⟩

theorem truncation_guard_before_read_witness :
    TickEvent.read 0 (some 3)
      ∈ (read_loop 8192 [{ fstat_size := some 3, reads := [ReadResult.bytes "ab\n".toList] },
          { fstat_size := some 3, reads := [] }] 10).2 ∧
    0 ≤ 3 :=
  ⟨by decide,
    (truncation_guard_before_read 8192
      [{ fstat_size := some 3, reads := [ReadResult.bytes "ab\n".toList] },
        { fstat_size := some 3, reads := [] }] 10).2.2.2 0 3 (by decide)⟩

/-! ### `full_read` and the capture of `invoke_exec` -/

theorem full_read_fuel_mono (f1 : Nat) :
    ∀ (f2 : Nat) (reads : List ReadResult) (len : Nat) (got : List Char),
      len ≤ f1 → len ≤ f2 →
      full_read_fuel f1 reads len got = full_read_fuel f2 reads len got := by
  induction f1 with
  | zero =>
    intro f2 reads len got h1 _
    have hl : len = 0 := by omega
    subst hl
    cases f2 <;> simp [full_read_fuel]
  | succ k ih =>
    intro f2 reads len got h1 h2
    cases f2 with
    | zero =>
      have hl : len = 0 := by omega
      subst hl
      simp [full_read_fuel]
    | succ j =>
      unfold full_read_fuel
      by_cases hl : len = 0
      · simp [hl]
      · simp only [hl, if_false]
        rcases hs : safe_read reads len with ⟨res, rest⟩
        cases res with
        | none => rfl
        | some data =>
          by_cases hd : data.length = 0
          · simp [hd]
          · simp only [hd, if_false]
            exact ih j rest _ _ (by omega) (by omega)

theorem full_read_fuel_acc (f : Nat) :
    ∀ (reads : List ReadResult) (len : Nat) (got : List Char),
      full_read_fuel f reads len got
        = match full_read_fuel f reads len [] with
          | some r => some (got ++ r)
          | none => if got.length ≠ 0 then some got else none := by
  induction f with
  | zero => intro reads len got; simp [full_read_fuel]
  | succ k ih =>
    intro reads len got
    unfold full_read_fuel
    by_cases hl : len = 0
    · simp [hl]
    · simp only [hl, if_false]
      rcases hs : safe_read reads len with ⟨res, rest⟩
      cases res with
      | none => simp
      | some data =>
        by_cases hd : data.length = 0
        · simp [hd]
        · have hne : data ≠ [] := fun e => hd (by rw [e]; rfl)
          simp only [hd, if_false, List.nil_append]
          rw [ih rest _ (got ++ data), ih rest _ data]
          cases full_read_fuel k rest (len - data.length) [] with
          | none => simp [hne, hd]
          | some r => simp

theorem full_read_fuel_length (f : Nat) :
    ∀ (reads : List ReadResult) (len : Nat) (got r : List Char),
      reads_within f reads len = true → full_read_fuel f reads len got = some r →
      r.length ≤ got.length + len := by
  induction f with
  | zero =>
    intro reads len got r _ h
    simp [full_read_fuel] at h
    subst h; omega
  | succ k ih =>
    intro reads len got r hw h
    unfold full_read_fuel at h
    unfold reads_within at hw
    by_cases hl : len = 0
    · simp [hl] at h
      subst h; omega
    · simp only [hl, if_false] at h hw
      rcases hs : safe_read reads len with ⟨res, rest⟩
      rw [hs] at h hw
      cases res with
      | none =>
        simp only at h
        split_ifs at h
        simp at h
        subst h; omega
      | some data =>
        simp only [Bool.and_eq_true, Bool.or_eq_true, decide_eq_true_eq] at hw
        by_cases hd : data.length = 0
        · simp [hd] at h
          subst h; omega
        · simp only [hd, if_false] at h
          have hrest : reads_within k rest (len - data.length) = true := by
            rcases hw.2 with h0 | h0
            · exact absurd h0 hd
            · exact h0
          have := ih rest _ _ r hrest h
          rw [List.length_append] at this
          omega

theorem safe_read_append (reads extra : List ReadResult) (count : Nat) :
    ∀ (data : List Char) (rest : List ReadResult),
      safe_read reads count = (some data, rest) → data ≠ [] →
      safe_read (reads ++ extra) count = (some data, rest ++ extra) := by
  induction reads with
  | nil =>
    intro data rest h hne
    simp [safe_read] at h
    exact absurd h.1 hne
  | cons r rs ih =>
    intro data rest h hne
    cases r with
    | bytes d =>
      simp only [safe_read, Prod.mk.injEq, Option.some.injEq] at h
      simp [safe_read, h.1, h.2]
    | eintr =>
      simp only [safe_read] at h
      simpa [safe_read] using ih data rest h hne
    | eagain =>
      simp only [safe_read, Prod.mk.injEq, Option.some.injEq] at h
      exact absurd h.1.symm hne
    | failed => simp [safe_read] at h

theorem full_read_fuel_append (f : Nat) (extra : List ReadResult) :
    ∀ (reads : List ReadResult) (len : Nat) (got r : List Char),
      reads_within f reads len = true → full_read_fuel f reads len got = some r →
      r.length = got.length + len →
      full_read_fuel f (reads ++ extra) len got = some r := by
  induction f with
  | zero =>
    intro reads len got r _ h _
    simpa [full_read_fuel] using h
  | succ k ih =>
    intro reads len got r hw h hfull
    unfold full_read_fuel at h ⊢
    unfold reads_within at hw
    by_cases hl : len = 0
    · simpa [hl] using h
    · simp only [hl, if_false] at h hw ⊢
      rcases hs : safe_read reads len with ⟨res, rest⟩
      rw [hs] at h hw
      cases res with
      | none =>
        simp only at h
        split_ifs at h
        simp at h
        subst h; omega
      | some data =>
        simp only [Bool.and_eq_true, Bool.or_eq_true, decide_eq_true_eq] at hw
        by_cases hd : data.length = 0
        · simp [hd] at h
          subst h; omega
        · simp only [hd, if_false] at h
          have hne : data ≠ [] := fun e => hd (by rw [e]; rfl)
          have hrest : reads_within k rest (len - data.length) = true := by
            rcases hw.2 with h0 | h0
            · exact absurd h0 hd
            · exact h0
          rw [safe_read_append reads extra len data rest hs hne]
          simp only [hd, if_false]
          apply ih rest _ _ r hrest h
          rw [List.length_append]
          omega

theorem full_read_eq_none (reads : List ReadResult) (len : Nat) :
    full_read reads len = none ↔ (len ≠ 0 ∧ (safe_read reads len).1 = none) := by
  unfold full_read
  cases len with
  | zero => simp [full_read_fuel]
  | succ n =>
    unfold full_read_fuel
    simp only [Nat.succ_ne_zero, if_false, ne_eq, not_false_eq_true, true_and]
    rcases hs : safe_read reads (n + 1) with ⟨res, rest⟩
    cases res with
    | none => simp
    | some data =>
      by_cases hd : data.length = 0
      · simp [hd]
      · have hne : data ≠ [] := fun e => hd (by rw [e]; rfl)
        simp only [hd, if_false, List.nil_append]
        rw [full_read_fuel_acc]
        cases full_read_fuel n rest (n + 1 - data.length) [] <;> simp [hd]

theorem full_read_step (reads rest : List ReadResult) (len : Nat) (data : List Char)
    (hl : len ≠ 0) (hs : safe_read reads len = (some data, rest)) (hne : data ≠ []) :
    full_read reads len = some (data ++ (full_read rest (len - data.length)).getD []) := by
  have hd : data.length ≠ 0 := fun e => hne (List.length_eq_zero.1 e)
  unfold full_read
  cases len with
  | zero => exact absurd rfl hl
  | succ n =>
    rw [full_read_fuel]
    simp only [Nat.succ_ne_zero, if_false, hs, hd, List.nil_append]
    rw [full_read_fuel_acc,
      full_read_fuel_mono n (n + 1 - data.length) rest (n + 1 - data.length) []
        (by omega) (le_refl _)]
    cases full_read_fuel (n + 1 - data.length) rest (n + 1 - data.length) [] <;> simp [hd]

/-- C19: with `read` calls that return at most the count asked for, `full_read` returns at
most `len` bytes; it returns -1 if and only if there is room to fill and the first `read`
fails; it stops at once when there is no room left and at the first `read` that gives no
byte; after a `read` that gave bytes it goes on with the room left, and what it then
returns is these bytes followed by what the later reads give, also when a later `read`
fails. -/
theorem full_read_result (reads : List ReadResult) (len : Nat)
    (hcontract : read_contract reads len = true) :
    (∀ got, full_read reads len = some got → got.length ≤ len) ∧
    (full_read reads len = none ↔ (len ≠ 0 ∧ (safe_read reads len).1 = none)) ∧
    (len = 0 → full_read reads len = some []) ∧
    (len ≠ 0 → ∀ rest, safe_read reads len = (some [], rest) →
      full_read reads len = some []) ∧
    (len ≠ 0 → ∀ data rest, safe_read reads len = (some data, rest) → data ≠ [] →
      full_read reads len
        = some (data ++ (full_read rest (len - data.length)).getD [])) := by
  refine ⟨?_, full_read_eq_none reads len, ?_, ?_, ?_⟩
  · intro got h
    have := full_read_fuel_length len reads len [] got hcontract h
    simpa using this
  · intro h
    subst h
    rfl
  · intro hl rest hs
    unfold full_read
    cases len with
    | zero => exact absurd rfl hl
    | succ n => simp [full_read_fuel, hs]
  · intro hl data rest hs hne
    exact full_read_step reads rest len data hl hs hne

theorem full_read_result_witness :
    read_contract [ReadResult.bytes "ab".toList, ReadResult.eintr,
      ReadResult.bytes "cd".toList, ReadResult.failed] 10 = true ∧
    full_read [ReadResult.bytes "ab".toList, ReadResult.eintr,
      ReadResult.bytes "cd".toList, ReadResult.failed] 10 = some "abcd".toList ∧
    "abcd".toList.length ≤ 10 :=
  ⟨by decide, by decide,
    (full_read_result [ReadResult.bytes "ab".toList, ReadResult.eintr,
      ReadResult.bytes "cd".toList, ReadResult.failed] 10 (by decide)).1 "abcd".toList
      (by decide)⟩

theorem c_string_length (buffer : List Char) : (c_string buffer).length ≤ buffer.length :=
  ( List.takeWhile_prefix _).length_le

theorem terminate_length (s : CStr) : (terminate_str_at_first_eol s).length ≤ s.length := by
  rw [terminate_eq_takeWhile]
  exact ( List.takeWhile_prefix _).length_le

theorem invoke_exec_output (run : ProcRun) (outputsize : Nat) :
    (invoke_exec run true outputsize).output = [] ∨
      ∃ data, full_read run.reads (outputsize - 1) = some data ∧
        (invoke_exec run true outputsize).output = c_string data := by
  unfold invoke_exec
  dsimp only
  split_ifs <;>
    first
    | (left; rfl)
    | (left; cases run.wait <;> rfl)
    | (cases hr : full_read run.reads (outputsize - 1) with
       | none => left; cases run.wait <;> rfl
       | some data => right; exact ⟨data, rfl, by cases run.wait <;> rfl⟩)

theorem invoke_exec_output_length (run : ProcRun) (outputsize : Nat)
    (hcontract : read_contract run.reads (outputsize - 1) = true) :
    (invoke_exec run true outputsize).output.length ≤ outputsize - 1 := by
  rcases invoke_exec_output run outputsize with h | ⟨data, h1, h2⟩
  · rw [h]; simp
  · rw [h2]
    have := full_read_fuel_length _ run.reads _ [] data hcontract h1
    have := c_string_length data
    simp at *
    omega

theorem resolve_text_value (calloc_ok : Bool) (run : ProcRun) (v : CStr)
    (h : resolve_text calloc_ok run = some v) :
    v = terminate_str_at_first_eol (invoke_exec run true BUFFER_SIZE).output := by
  unfold resolve_text at h
  dsimp only at h
  split_ifs at h
  exact (Option.some.inj h).symm

theorem resolve_level_value (calloc_ok : Bool) (run : ProcRun) (v : CStr)
    (h : resolve_level calloc_ok run = some v) :
    v = terminate_str_at_first_eol (invoke_exec run true BUFFER_SIZE).output := by
  unfold resolve_level at h
  dsimp only at h
  split_ifs at h
  exact (Option.some.inj h).symm

/-- C18: for an output buffer of at least one byte and `read` calls on the pipe that return
at most the count asked for, `invoke_exec` stores at most `outputsize - 1` bytes of the
output of the child and writes the terminator at an index below `outputsize`; once the
buffer is full, what the child writes further changes neither the text captured nor the
value returned; with the 512 byte buffer of the field blocks, a resolved value is at most
511 bytes long. -/
theorem bounded_capture (run : ProcRun) (outputsize : Nat) (hsize : 1 ≤ outputsize)
    (hcontract : read_contract run.reads (outputsize - 1) = true) :
    (∀ data, full_read run.reads (outputsize - 1) = some data →
      data.length ≤ outputsize - 1 ∧ data.length < outputsize) ∧
    (invoke_exec run true outputsize).output.length ≤ outputsize - 1 ∧
    (∀ data extra, full_read run.reads (outputsize - 1) = some data →
      data.length = outputsize - 1 →
      full_read (run.reads ++ extra) (outputsize - 1) = some data ∧
      invoke_exec { run with reads := run.reads ++ extra } true outputsize
        = invoke_exec run true outputsize) ∧
    (outputsize = BUFFER_SIZE → ∀ calloc_ok v,
      (resolve_text calloc_ok run = some v ∨ resolve_level calloc_ok run = some v) →
      v.length ≤ 511) := by
  have hout := invoke_exec_output_length run outputsize hcontract
  refine ⟨?_, hout, ?_, ?_⟩
  · intro data h
    have := full_read_fuel_length _ run.reads _ [] data hcontract h
    simp at this
    omega
  · intro data extra h hfull
    have happ : full_read (run.reads ++ extra) (outputsize - 1) = some data :=
      full_read_fuel_append _ extra run.reads _ [] data hcontract h (by simpa using hfull)
    refine ⟨happ, ?_⟩
    unfold invoke_exec
    simp only [happ, h]
  · intro hb calloc_ok v hv
    subst hb
    have hv' : v = terminate_str_at_first_eol (invoke_exec run true BUFFER_SIZE).output := by
      rcases hv with hv | hv
      · exact resolve_text_value calloc_ok run v hv
      · exact resolve_level_value calloc_ok run v hv
    have h1 := terminate_length (invoke_exec run true BUFFER_SIZE).output
    rw [hv']
    simp only [BUFFER_SIZE] at hout h1 ⊢
    omega

theorem bounded_capture_witness :
    1 ≤ 4 ∧
    read_contract (proc_reads [ReadResult.bytes "IN".toList, ReadResult.bytes "F".toList,
      ReadResult.bytes "O".toList] 0).reads (4 - 1) = true ∧
    full_read (proc_reads [ReadResult.bytes "IN".toList, ReadResult.bytes "F".toList,
      ReadResult.bytes "O".toList] 0).reads (4 - 1) = some "INF".toList ∧
    (invoke_exec (proc_reads [ReadResult.bytes "IN".toList, ReadResult.bytes "F".toList,
      ReadResult.bytes "O".toList] 0) true 4).output.length ≤ 4 - 1 :=
  ⟨by decide, by decide, by decide,
    (bounded_capture (proc_reads [ReadResult.bytes "IN".toList, ReadResult.bytes "F".toList,
      ReadResult.bytes "O".toList] 0) 4 (by decide) (by decide)).2.1⟩

/-! ### The file table -/

theorem find_monitored_file_none (table : List MonitoredFile) (m : MonitoredFileRef) :
    find_monitored_file table m = none ↔ m.path ∉ table.map (fun e => e.path) := by
  induction table with
  | nil => simp [find_monitored_file]
  | cons e es ih =>
    by_cases h : e.path = m.path
    · simp [find_monitored_file, h]
    · have h' : ¬ m.path = e.path := fun x => h x.symm
      simp [find_monitored_file, h, h', ih]

theorem find_monitored_file_true (table : List MonitoredFile) (m : MonitoredFileRef)
    (h : find_monitored_file table m = some true) :
    ∃ e ∈ table, e.path = m.path ∧ e.is_status = m.is_status := by
  induction table with
  | nil => simp [find_monitored_file] at h
  | cons e es ih =>
    by_cases hp : e.path = m.path
    · simp [find_monitored_file, hp] at h
      exact ⟨e, by simp, hp, h⟩
    · simp only [find_monitored_file, hp, if_false] at h
      obtain ⟨e', he', h1, h2⟩ := ih h
      exact ⟨e', by simp [he'], h1, h2⟩

theorem add_monitored_files_spec (ms : List MonitoredFileRef) :
    ∀ (table t : List MonitoredFile), add_monitored_files table ms = some t →
      (∃ extra, t = table ++ extra ∧
        ∀ e ∈ extra, e.fd = none ∧ e.path ∈ ms.map (fun m => m.path)) ∧
      ((table.map (fun e => e.path)).Nodup → (t.map (fun e => e.path)).Nodup) ∧
      (∀ m ∈ ms, ∃ e ∈ t, e.path = m.path ∧ e.is_status = m.is_status) ∧
      t.length ≤ table.length + ms.length := by
  induction ms with
  | nil =>
    intro table t h
    simp only [add_monitored_files, Option.some.injEq] at h
    subst h
    exact ⟨⟨[], by simp, by simp⟩, fun hn => hn, by simp, by simp⟩
  | cons m ms ih =>
    intro table t h
    unfold add_monitored_files at h
    cases hf : find_monitored_file table m with
    | none =>
      rw [hf] at h
      obtain ⟨⟨extra, he, hextra⟩, hnd, hall, hlen⟩ := ih _ t h
      have hnot := (find_monitored_file_none table m).1 hf
      refine ⟨⟨new_monitored_file m :: extra, by simp [he], ?_⟩, ?_, ?_, ?_⟩
      · intro e hmem
        rcases List.mem_cons.1 hmem with h1 | h1
        · subst h1
          simp [new_monitored_file]
        · obtain ⟨h2, h3⟩ := hextra e h1
          exact ⟨h2, by simp only [List.map_cons, List.mem_cons]; exact Or.inr h3⟩
      · intro hn
        apply hnd
        rw [List.map_append, List.nodup_append]
        refine ⟨hn, by simp, ?_⟩
        intro a ha hb
        simp only [List.map_cons, List.map_nil, List.mem_singleton, new_monitored_file] at hb
        subst hb
        exact hnot ha
      · intro m' hm'
        rcases List.mem_cons.1 hm' with h1 | h1
        · subst h1
          exact ⟨new_monitored_file m', by rw [he]; simp, rfl, rfl⟩
        · exact hall m' h1
      · simp only [List.length_append, List.length_cons, List.length_nil] at hlen ⊢
        omega
    | some b =>
      rw [hf] at h
      cases b with
      | false => simp at h
      | true =>
        simp only at h
        obtain ⟨⟨extra, he, hextra⟩, hnd, hall, hlen⟩ := ih _ t h
        refine ⟨⟨extra, he, ?_⟩, hnd, ?_, ?_⟩
        · intro e hmem
          obtain ⟨h2, h3⟩ := hextra e hmem
          exact ⟨h2, by simp only [List.map_cons, List.mem_cons]; exact Or.inr h3⟩
        · intro m' hm'
          rcases List.mem_cons.1 hm' with h1 | h1
          · subst h1
            obtain ⟨e, he1, he2, he3⟩ := find_monitored_file_true table m' hf
            exact ⟨e, by rw [he]; simp [he1], he2, he3⟩
          · exact hall m' h1
        · simp only [List.length_cons]
          omega

theorem add_monitored_files_append (a b : List MonitoredFileRef) :
    ∀ table : List MonitoredFile,
      add_monitored_files table (a ++ b)
        = (add_monitored_files table a).bind (fun filled => add_monitored_files filled b) := by
  induction a with
  | nil => intro table; simp [add_monitored_files]
  | cons m ms ih =>
    intro table
    simp only [List.cons_append, add_monitored_files]
    cases find_monitored_file table m with
    | none => exact ih _
    | some c =>
      cases c with
      | false => rfl
      | true => exact ih _

theorem set_monitored_files_eq (notifications : List Notification) :
    ∀ table : List MonitoredFile,
      set_monitored_files table notifications
        = add_monitored_files table (bindings notifications) := by
  induction notifications with
  | nil => intro table; rfl
  | cons n ns ih =>
    intro table
    simp only [set_monitored_files, bindings, add_monitored_files_append]
    cases add_monitored_files table n.monitored_files with
    | none => rfl
    | some filled => simpa using ih filled

theorem mem_bindings (notifications : List Notification) (m : MonitoredFileRef) :
    m ∈ bindings notifications ↔ ∃ n ∈ notifications, m ∈ n.monitored_files := by
  induction notifications with
  | nil => simp [bindings]
  | cons n ns ih => simp [bindings, ih]

theorem length_bindings (notifications : List Notification)
    (h : ∀ n ∈ notifications,
      n.monitored_files.length ≤ MAX_NUM_MONITORED_FILES_PER_NOTIFICATION) :
    (bindings notifications).length
      ≤ notifications.length * MAX_NUM_MONITORED_FILES_PER_NOTIFICATION := by
  induction notifications with
  | nil => simp [bindings]
  | cons n ns ih =>
    have h1 := h n (by simp)
    have h2 := ih (fun n' hn' => h n' (by simp [hn']))
    simp only [bindings, List.length_append, List.length_cons]
    rw [Nat.add_mul]
    omega

theorem eq_of_nodup_path (table : List MonitoredFile)
    (hn : (table.map (fun e => e.path)).Nodup) :
    ∀ a ∈ table, ∀ b ∈ table, a.path = b.path → a = b := by
  induction table with
  | nil => intro a ha; simp at ha
  | cons e es ih =>
    simp only [List.map_cons, List.nodup_cons, List.mem_map, not_exists, not_and] at hn
    intro a ha b hb hab
    rcases List.mem_cons.1 ha with h1 | h1 <;> rcases List.mem_cons.1 hb with h2 | h2
    · rw [h1, h2]
    · subst h1
      exact absurd hab.symm (hn.1 b h2)
    · subst h2
      exact absurd hab (hn.1 a h1)
    · exact ih hn.2 a h1 b h2 hab

/-- C20: when `create_context` builds the file table from the notifications loaded, no two
entries have the same path, the paths of the entries are exactly the paths bound by the
notifications, the kind of an entry is the kind of every binding of its path, every entry
has no descriptor, and with at most 16 notifications of at most 4 bindings each, as the
loaders ensure, there are at most 64 entries. -/
theorem file_table_construction (notifications : List Notification)
    (table : List MonitoredFile) (h : create_file_table notifications = some table) :
    (table.map (fun e => e.path)).Nodup ∧
    (∀ p, p ∈ table.map (fun e => e.path) ↔
      ∃ n ∈ notifications, ∃ m ∈ n.monitored_files, m.path = p) ∧
    (∀ e ∈ table, ∀ n ∈ notifications, ∀ m ∈ n.monitored_files,
      m.path = e.path → m.is_status = e.is_status) ∧
    (∀ e ∈ table, e.fd = none) ∧
    (notifications.length ≤ MAX_NUM_NOTIFICATIONS →
      (∀ n ∈ notifications,
        n.monitored_files.length ≤ MAX_NUM_MONITORED_FILES_PER_NOTIFICATION) →
      table.length ≤ MAX_NUM_MONITORED_FILES) := by
  unfold create_file_table at h
  rw [set_monitored_files_eq] at h
  obtain ⟨⟨extra, he, hextra⟩, hnd, hall, hlen⟩ :=
    add_monitored_files_spec (bindings notifications) [] table h
  simp only [List.nil_append] at he
  subst he
  have hnodup := hnd (by simp)
  refine ⟨hnodup, ?_, ?_, ?_, ?_⟩
  · intro p
    constructor
    · intro hp
      obtain ⟨e, he1, he2⟩ := List.mem_map.1 hp
      obtain ⟨m, hm1, hm2⟩ := List.mem_map.1 (hextra e he1).2
      obtain ⟨n, hn1, hn2⟩ := (mem_bindings notifications m).1 hm1
      exact ⟨n, hn1, m, hn2, by rw [hm2, ← he2]⟩
    · rintro ⟨n, hn1, m, hn2, hp⟩
      obtain ⟨e, he1, he2, _⟩ := hall m ((mem_bindings notifications m).2 ⟨n, hn1, hn2⟩)
      exact List.mem_map.2 ⟨e, he1, by rw [he2, hp]⟩
  · intro e he1 n hn1 m hn2 hp
    obtain ⟨e', h1, h2, h3⟩ := hall m ((mem_bindings notifications m).2 ⟨n, hn1, hn2⟩)
    have : e' = e := eq_of_nodup_path table hnodup e' h1 e he1 (by rw [h2, hp])
    rw [← this, h3]
  · intro e he1
    exact (hextra e he1).1
  · intro h16 h4
    have := length_bindings notifications h4
    have hmul : notifications.length * MAX_NUM_MONITORED_FILES_PER_NOTIFICATION
        ≤ MAX_NUM_NOTIFICATIONS * MAX_NUM_MONITORED_FILES_PER_NOTIFICATION :=
      Nat.mul_le_mul_right _ h16
    simp only [List.length_nil, Nat.zero_add] at hlen
    unfold MAX_NUM_MONITORED_FILES
    omega

theorem file_table_construction_witness :
    create_file_table [disk_full false false false,
        disk_full_on [⟨"/var/log/app.log".toList, false⟩, ⟨"/run/state".toList, true⟩]]
      = some [new_monitored_file ⟨"/var/log/app.log".toList, false⟩,
          new_monitored_file ⟨"/run/state".toList, true⟩] ∧
    ([new_monitored_file ⟨"/var/log/app.log".toList, false⟩,
        new_monitored_file ⟨"/run/state".toList, true⟩].map (fun e => e.path)).Nodup ∧
    (∀ e ∈ [new_monitored_file ⟨"/var/log/app.log".toList, false⟩,
        new_monitored_file ⟨"/run/state".toList, true⟩], e.fd = none) :=
  ⟨by decide,
    (file_table_construction [disk_full false false false,
        disk_full_on [⟨"/var/log/app.log".toList, false⟩, ⟨"/run/state".toList, true⟩]]
      [new_monitored_file ⟨"/var/log/app.log".toList, false⟩,
        new_monitored_file ⟨"/run/state".toList, true⟩] (by decide)).1,
    (file_table_construction [disk_full false false false,
        disk_full_on [⟨"/var/log/app.log".toList, false⟩, ⟨"/run/state".toList, true⟩]]
      [new_monitored_file ⟨"/var/log/app.log".toList, false⟩,
        new_monitored_file ⟨"/run/state".toList, true⟩] (by decide)).2.2.2.1⟩

theorem find_monitored_file_false (table : List MonitoredFile) (m : MonitoredFileRef)
    (h : find_monitored_file table m = some false) :
    ∃ e ∈ table, e.path = m.path ∧ e.is_status ≠ m.is_status := by
  induction table with
  | nil => simp [find_monitored_file] at h
  | cons e es ih =>
    by_cases hp : e.path = m.path
    · simp [find_monitored_file, hp] at h
      exact ⟨e, by simp, hp, h⟩
    · simp only [find_monitored_file, hp, if_false] at h
      obtain ⟨e', he', h1, h2⟩ := ih h
      exact ⟨e', by simp [he'], h1, h2⟩

theorem add_monitored_files_none (ms : List MonitoredFileRef) :
    ∀ table : List MonitoredFile, add_monitored_files table ms = none →
      ∃ m ∈ ms, (∃ e ∈ table, e.path = m.path ∧ e.is_status ≠ m.is_status) ∨
        ∃ m' ∈ ms, m'.path = m.path ∧ m'.is_status ≠ m.is_status := by
  induction ms with
  | nil => intro table h; simp [add_monitored_files] at h
  | cons m ms ih =>
    intro table h
    unfold add_monitored_files at h
    cases hf : find_monitored_file table m with
    | none =>
      rw [hf] at h
      obtain ⟨m0, hm0, hc⟩ := ih _ h
      refine ⟨m0, by simp [hm0], ?_⟩
      rcases hc with ⟨e, he, h1, h2⟩ | ⟨m', hm', h1, h2⟩
      · rcases List.mem_append.1 he with he | he
        · exact Or.inl ⟨e, he, h1, h2⟩
        · simp only [List.mem_singleton] at he
          subst he
          exact Or.inr ⟨m, by simp, h1, h2⟩
      · exact Or.inr ⟨m', by simp [hm'], h1, h2⟩
    | some b =>
      rw [hf] at h
      cases b with
      | false =>
        exact ⟨m, by simp, Or.inl (find_monitored_file_false table m hf)⟩
      | true =>
        simp only at h
        obtain ⟨m0, hm0, hc⟩ := ih _ h
        refine ⟨m0, by simp [hm0], ?_⟩
        rcases hc with hc | ⟨m', hm', h1, h2⟩
        · exact Or.inl hc
        · exact Or.inr ⟨m', by simp [hm'], h1, h2⟩

/-- C21: when two bindings of the notifications loaded, in one notification or in two, name
the same path with different kinds, the file table is not built and `create_context`
returns `NULL`, in whatever order the notifications and their bindings come; and the
construction fails for no other reason. -/
theorem kind_conflict_rejected (notifications : List Notification) :
    ((∃ n1 ∈ notifications, ∃ m1 ∈ n1.monitored_files, ∃ n2 ∈ notifications,
        ∃ m2 ∈ n2.monitored_files, m1.path = m2.path ∧ m1.is_status ≠ m2.is_status) →
      create_file_table notifications = none) ∧
    (create_file_table notifications = none →
      ∃ n1 ∈ notifications, ∃ m1 ∈ n1.monitored_files, ∃ n2 ∈ notifications,
        ∃ m2 ∈ n2.monitored_files, m1.path = m2.path ∧ m1.is_status ≠ m2.is_status) := by
  constructor
  · rintro ⟨n1, hn1, m1, hm1, n2, hn2, m2, hm2, hp, hk⟩
    cases h : create_file_table notifications with
    | none => rfl
    | some table =>
      exfalso
      unfold create_file_table at h
      rw [set_monitored_files_eq] at h
      obtain ⟨_, hnd, hall, _⟩ := add_monitored_files_spec (bindings notifications) [] table h
      have hnodup := hnd (by simp)
      obtain ⟨e1, he1, h11, h12⟩ := hall m1 ((mem_bindings notifications m1).2 ⟨n1, hn1, hm1⟩)
      obtain ⟨e2, he2, h21, h22⟩ := hall m2 ((mem_bindings notifications m2).2 ⟨n2, hn2, hm2⟩)
      have : e1 = e2 := eq_of_nodup_path table hnodup e1 he1 e2 he2 (by rw [h11, h21, hp])
      subst this
      exact hk (by rw [← h12, ← h22])
  · intro h
    unfold create_file_table at h
    rw [set_monitored_files_eq] at h
    obtain ⟨m, hm, hc⟩ := add_monitored_files_none (bindings notifications) [] h
    rcases hc with ⟨e, he, _⟩ | ⟨m', hm', h1, h2⟩
    · simp at he
    · obtain ⟨n, hn, hmn⟩ := (mem_bindings notifications m).1 hm
      obtain ⟨n', hn', hmn'⟩ := (mem_bindings notifications m').1 hm'
      exact ⟨n', hn', m', hmn', n, hn, m, hmn, h1, h2⟩

theorem kind_conflict_rejected_witness :
    (∃ n1 ∈ [disk_full false false false,
        disk_full_on [⟨"/run/state".toList, true⟩, ⟨"/var/log/app.log".toList, true⟩]],
      ∃ m1 ∈ n1.monitored_files,
      ∃ n2 ∈ [disk_full false false false,
        disk_full_on [⟨"/run/state".toList, true⟩, ⟨"/var/log/app.log".toList, true⟩]],
      ∃ m2 ∈ n2.monitored_files, m1.path = m2.path ∧ m1.is_status ≠ m2.is_status) ∧
    create_file_table [disk_full false false false,
      disk_full_on [⟨"/run/state".toList, true⟩, ⟨"/var/log/app.log".toList, true⟩]]
      = none :=
  ⟨⟨disk_full false false false, by simp, ⟨"/var/log/app.log".toList, false⟩,
      by simp [disk_full],
      disk_full_on [⟨"/run/state".toList, true⟩, ⟨"/var/log/app.log".toList, true⟩],
      by simp, ⟨"/var/log/app.log".toList, true⟩, by simp [disk_full_on], rfl, by simp⟩,
    (kind_conflict_rejected [disk_full false false false,
      disk_full_on [⟨"/run/state".toList, true⟩, ⟨"/var/log/app.log".toList, true⟩]]).1
      ⟨disk_full false false false, by simp, ⟨"/var/log/app.log".toList, false⟩,
        by simp [disk_full],
        disk_full_on [⟨"/run/state".toList, true⟩, ⟨"/var/log/app.log".toList, true⟩],
        by simp, ⟨"/var/log/app.log".toList, true⟩, by simp [disk_full_on], rfl, by simp⟩⟩

/-! ### The cap and the termination of `handle_read` -/

theorem line_too_long_iff (p buf : CStr) :
    line_too_long (some p) buf = true ↔ 512000 ≤ p.length + buf.length := by
  simp only [line_too_long, new_buf_size, decide_eq_true_eq]
  omega

theorem handle_read_kept (p buf : CStr) (h : line_too_long (some p) buf = false) :
    handle_read (some p) buf = handle_read none (p ++ buf) := by
  unfold handle_read
  rw [handle_read_fuel_pending _ _ _ h]
  simp

/-- C22, input on which the claim as stated fails: a pending buffer of 511999 bytes and a
chunk of one byte, 512000 bytes together; the size computed counts the terminating NUL, so
the guard fires and the buffer is discarded where the claim has it kept. -/
theorem cap_at_512000_discards :
    (List.replicate 511999 'a').length + ['b'].length = 512000 ∧
    handle_read (some (List.replicate 511999 'a')) ['b'] = some ([], none) ∧
    handle_read (some (List.replicate 511999 'a')) ['b']
      ≠ some ([], some (List.replicate 511999 'a' ++ ['b'])) := by
  have hlen : (List.replicate 511999 'a').length + ['b'].length = 512000 := by
    rw [List.length_replicate]; rfl
  have hcap : line_too_long (some (List.replicate 511999 'a')) ['b'] = true :=
    (line_too_long_iff _ _).2 (by rw [hlen])
  have h := handle_read_capped _ _ hcap
  refine ⟨hlen, h, ?_⟩
  rw [h]
  intro e
  cases e

/-- C22 (amended): when a file has a pending buffer, `handle_read` takes the "line too long"
branch, and then handles no line and leaves no pending buffer, if and only if the pending
length plus the chunk length plus one for the terminating NUL exceeds 512000, that is if
the two lengths together are at least 512000; up to 511999 bytes together the chunk is
appended and the text is processed as a call without pending buffer processes it.  Without
a pending buffer the branch is never taken. -/
theorem cap_threshold (p buf : CStr) :
    (line_too_long (some p) buf = true ↔ 512000 < p.length + buf.length + 1) ∧
    (line_too_long (some p) buf = true ↔ 512000 ≤ p.length + buf.length) ∧
    (512000 ≤ p.length + buf.length → handle_read (some p) buf = some ([], none)) ∧
    (p.length + buf.length ≤ 511999 →
      handle_read (some p) buf = handle_read none (p ++ buf)) ∧
    line_too_long none buf = false := by
  refine ⟨?_, line_too_long_iff p buf, ?_, ?_, rfl⟩
  · rw [line_too_long_iff]; omega
  · intro h
    exact handle_read_capped p buf ((line_too_long_iff p buf).2 h)
  · intro h
    apply handle_read_kept
    cases hc : line_too_long (some p) buf with
    | false => rfl
    | true =>
      have := (line_too_long_iff p buf).1 hc
      omega

theorem cap_threshold_witness :
    "ab".toList.length + "c\nd".toList.length ≤ 511999 ∧
    handle_read (some "ab".toList) "c\nd".toList = handle_read none ("ab".toList ++ "c\nd".toList) ∧
    handle_read (some "ab".toList) "c\nd".toList = some (["abc".toList], some "d".toList) :=
  ⟨by decide, (cap_threshold "ab".toList "c\nd".toList).2.2.2.1 (by decide), by decide⟩

theorem count_newline_terminated (segments : List CStr) (rest : CStr)
    (hseg : ∀ s ∈ segments, '\n' ∉ s) (hrest : '\n' ∉ rest) :
    (terminated segments rest).count '\n' = segments.length := by
  induction segments with
  | nil => simpa [terminated_nil] using List.count_eq_zero_of_not_mem hrest
  | cons s ss ih =>
    have h1 : s.count '\n' = 0 := List.count_eq_zero_of_not_mem (hseg s (by simp))
    have h2 := ih (fun t ht => hseg t (by simp [ht]))
    rw [terminated_cons, List.count_append, List.count_cons_self, h1, h2]
    simp

theorem strchr_split (c : Char) (w : CStr) :
    ∀ i, strchr w c = some i → c ∉ w.take i ∧ w = w.take i ++ c :: w.drop (i + 1) := by
  induction w with
  | nil => intro i h; simp [strchr] at h
  | cons x xs ih =>
    intro i h
    by_cases hx : x = c
    · simp only [strchr, hx, if_true, Option.some.injEq] at h
      subst h
      simp [hx]
    · simp only [strchr, hx, if_false, Option.map_eq_some'] at h
      obtain ⟨j, hj, hi⟩ := h
      subst hi
      obtain ⟨h1, h2⟩ := ih j hj
      refine ⟨?_, ?_⟩
      · simp only [List.take_succ_cons, List.mem_cons, not_or]
        exact ⟨fun e => hx e.symm, h1⟩
      · simp only [List.take_succ_cons, List.drop_succ_cons, List.cons_append]
        rw [← h2]

theorem handle_read_fuel_enough (pending_buf : Option CStr) (buf : CStr) (fuel : Nat)
    (hfuel : (pending_buf.getD [] ++ buf).count '\n' < fuel) :
    handle_read_fuel fuel pending_buf buf = handle_read pending_buf buf ∧
    ∃ r, handle_read pending_buf buf = some r := by
  cases hcap : line_too_long pending_buf buf with
  | true =>
    cases pending_buf with
    | none => simp [line_too_long] at hcap
    | some p =>
      have h1 := handle_read_capped p buf hcap
      refine ⟨?_, _, h1⟩
      rw [h1]
      have h' : new_buf_size p buf > 500 * 1024 := by simpa [line_too_long] using hcap
      cases fuel with
      | zero => omega
      | succ k => simp [handle_read_fuel, h']
  | false =>
    obtain ⟨segs, rest, hs, hr, hw⟩ := exists_terminated (pending_buf.getD [] ++ buf)
    have h1 := handle_read_of_terminated pending_buf buf segs rest hcap hs hr hw
    refine ⟨?_, _, h1⟩
    rw [h1]
    have hlen : segs.length < fuel := by
      rw [hw, count_newline_terminated segs rest hs hr] at hfuel
      exact hfuel
    cases pending_buf with
    | none =>
      simp only [Option.getD_none, List.nil_append] at hw
      rw [hw]
      exact handle_read_fuel_terminated segs rest fuel hs hr hlen
    | some p =>
      simp only [Option.getD_some] at hw
      rw [handle_read_fuel_pending _ _ _ hcap, hw]
      exact handle_read_fuel_terminated segs rest fuel hs hr hlen

theorem handle_read_fuel_step (pending_buf : Option CStr) (buf : CStr) (fuel eol : Nat)
    (hcap : line_too_long pending_buf buf = false)
    (heol : strchr (pending_buf.getD [] ++ buf) '\n' = some eol) :
    ∃ handled, handle_read_fuel (fuel + 1) pending_buf buf
      = if ((pending_buf.getD [] ++ buf).drop (eol + 1)).length > 0 then
          (handle_read_fuel fuel none ((pending_buf.getD [] ++ buf).drop (eol + 1))).map
            (fun r => (handled ++ r.1, r.2))
        else some (handled, none) := by
  have key : ∀ work : CStr, strchr work '\n' = some eol →
      ∃ handled, handle_read_fuel (fuel + 1) none work
        = if (work.drop (eol + 1)).length > 0 then
            (handle_read_fuel fuel none (work.drop (eol + 1))).map
              (fun r => (handled ++ r.1, r.2))
          else some (handled, none) := by
    intro work hw
    refine ⟨if (if eol ≠ 0 ∧ work[eol - 1]? = some '\r' then work.take (eol - 1)
        else work.take eol).length > 0
      then [if eol ≠ 0 ∧ work[eol - 1]? = some '\r' then work.take (eol - 1)
        else work.take eol] else [], ?_⟩
    simp only [handle_read_fuel, hw]
    split_ifs <;> first
      | rfl
      | (cases handle_read_fuel fuel none (work.drop (eol + 1)) <;> rfl)
  cases pending_buf with
  | none =>
    simp only [Option.getD_none, List.nil_append] at heol ⊢
    exact key buf heol
  | some p =>
    simp only [Option.getD_some] at heol ⊢
    rw [handle_read_fuel_pending _ _ _ hcap]
    exact key (p ++ buf) heol

/-- C23: `handle_read` returns for every pending buffer and every chunk, and a depth of
recursion of one more than the number of newlines of the work buffer is enough.  When the
work buffer holds a newline, the text after the first one is strictly shorter than the work
buffer and holds one newline less, and the only recursive call is made on that text, when
it is not empty, with no pending buffer. -/
theorem handle_read_terminates (pending_buf : Option CStr) (buf : CStr) :
    (∃ r, handle_read pending_buf buf = some r) ∧
    (∀ fuel, (pending_buf.getD [] ++ buf).count '\n' < fuel →
      handle_read_fuel fuel pending_buf buf = handle_read pending_buf buf) ∧
    (∀ eol, strchr (pending_buf.getD [] ++ buf) '\n' = some eol →
      '\n' ∉ (pending_buf.getD [] ++ buf).take eol ∧
      pending_buf.getD [] ++ buf
        = (pending_buf.getD [] ++ buf).take eol
          ++ '\n' :: (pending_buf.getD [] ++ buf).drop (eol + 1) ∧
      ((pending_buf.getD [] ++ buf).drop (eol + 1)).length
        < (pending_buf.getD [] ++ buf).length ∧
      ((pending_buf.getD [] ++ buf).drop (eol + 1)).count '\n' + 1
        = (pending_buf.getD [] ++ buf).count '\n') ∧
    (∀ fuel eol, line_too_long pending_buf buf = false →
      strchr (pending_buf.getD [] ++ buf) '\n' = some eol →
      ∃ handled, handle_read_fuel (fuel + 1) pending_buf buf
        = if ((pending_buf.getD [] ++ buf).drop (eol + 1)).length > 0 then
            (handle_read_fuel fuel none ((pending_buf.getD [] ++ buf).drop (eol + 1))).map
              (fun r => (handled ++ r.1, r.2))
          else some (handled, none)) := by
  refine ⟨(handle_read_fuel_enough pending_buf buf _ (Nat.lt_succ_self _)).2,
    fun fuel h => (handle_read_fuel_enough pending_buf buf fuel h).1, ?_,
    fun fuel eol hcap heol => handle_read_fuel_step pending_buf buf fuel eol hcap heol⟩
  intro eol heol
  generalize pending_buf.getD [] ++ buf = work at heol ⊢
  obtain ⟨h1, h2⟩ := strchr_split '\n' work eol heol
  refine ⟨h1, h2, ?_, ?_⟩
  · have := congrArg List.length h2
    simp only [List.length_append, List.length_cons] at this
    omega
  · have := congrArg (List.count '\n') h2
    simp only [List.count_append, List.count_cons_self,
      List.count_eq_zero_of_not_mem h1] at this
    omega

theorem handle_read_terminates_witness :
    ("ab".toList ++ "c\nd\n\ne".toList).count '\n' < 4 ∧
    handle_read_fuel 4 (some "ab".toList) "c\nd\n\ne".toList
      = handle_read (some "ab".toList) "c\nd\n\ne".toList ∧
    handle_read (some "ab".toList) "c\nd\n\ne".toList
      = some (["abc".toList, "d".toList], some "e".toList) :=
  ⟨by decide,
    (handle_read_terminates (some "ab".toList) "c\nd\n\ne".toList).2.1 4 (by decide),
    by decide⟩

/-! ### The debouncing value -/

theorem digit_char_facts (d : Nat) (h : d < 10) :
    isdigit (digit_char d) = true ∧ digit_value (digit_char d) = d ∧
    isspace (digit_char d) = false ∧ digit_char d ≠ '-' ∧ digit_char d ≠ '+' := by
  interval_cases d <;> decide

theorem strtol_digits_map (digits : List Nat) :
    ∀ acc, (∀ d ∈ digits, d < 10) →
      strtol_digits (digits.map digit_char) acc
        = (digits.foldl (fun acc d => acc * 10 + d) acc, digits.length) := by
  induction digits with
  | nil => intro acc _; rfl
  | cons d ds ih =>
    intro acc h
    obtain ⟨h1, h2, _⟩ := digit_char_facts d (h d (by simp))
    have := ih (acc * 10 + d) (fun x hx => h x (by simp [hx]))
    simp [strtol_digits, h1, h2, this]

theorem strtol_of_parts (str : CStr) (negative : Bool) (sign value n : Nat)
    (hsp : str.takeWhile isspace = [])
    (hneg : decide (str.head? = some '-') = negative)
    (hsign : (if str.head? = some '-' ∨ str.head? = some '+' then 1 else 0) = sign)
    (hdig : strtol_digits (str.drop sign) 0 = (value, n)) (hn : n ≠ 0)
    (hmin : LONG_MIN ≤ (if negative then -(value : Int) else (value : Int)))
    (hmax : (if negative then -(value : Int) else (value : Int)) ≤ LONG_MAX) :
    strtol str = ((if negative then -(value : Int) else (value : Int)), sign + n) := by
  unfold strtol
  simp only [hsp, List.length_nil, List.drop_zero, hneg, hsign, hdig, Nat.zero_add]
  rw [if_neg hn, if_neg (not_lt.2 hmax), if_neg (not_lt.2 hmin)]

theorem strtol_decimal (negative : Bool) (digits : List Nat) (hne : digits ≠ [])
    (hd : ∀ d ∈ digits, d < 10) (hmin : LONG_MIN ≤ signed_value negative digits)
    (hmax : signed_value negative digits ≤ LONG_MAX) :
    strtol (decimal negative digits)
      = (signed_value negative digits, (decimal negative digits).length) := by
  have hdig := strtol_digits_map digits 0 hd
  have hlen : digits.length ≠ 0 := fun e => hne (List.length_eq_zero.1 e)
  cases negative with
  | true =>
    have hsp : isspace '-' = false := by decide
    have h := strtol_of_parts ('-' :: digits.map digit_char) true 1 (decimal_value digits)
      digits.length (by simp [List.takeWhile_cons, hsp]) (by simp) (by simp)
      (by simpa [decimal_value] using hdig) hlen
      (by simpa [signed_value] using hmin) (by simpa [signed_value] using hmax)
    simp only [decimal, if_true, List.singleton_append, signed_value, List.length_cons,
      List.length_map]
    rw [h, Nat.add_comm]
    simp
  | false =>
    cases digits with
    | nil => exact absurd rfl hne
    | cons d ds =>
      obtain ⟨_, _, h3, h4, h5⟩ := digit_char_facts d (hd d (by simp))
      have h := strtol_of_parts (digit_char d :: ds.map digit_char) false 0
        (decimal_value (d :: ds)) (d :: ds).length (by simp [List.takeWhile_cons, h3])
        (by simp [h4]) (by simp [h4, h5])
        (by simpa [decimal_value] using hdig) hlen
        (by simpa [signed_value] using hmin) (by simpa [signed_value] using hmax)
      simp only [decimal, Bool.false_eq_true, if_false, List.nil_append, List.map_cons,
        signed_value, List.length_cons, List.length_map] at h ⊢
      rw [h, Nat.zero_add]

theorem convert_debouncing_decimal (negative : Bool) (digits : List Nat)
    (errno_erange : Bool) (hne : digits ≠ []) (hd : ∀ d ∈ digits, d < 10)
    (hmin : INT_MIN ≤ signed_value negative digits)
    (hmax : signed_value negative digits ≤ INT_MAX) :
    convert_debouncing (decimal negative digits) errno_erange
      = some (signed_value negative digits) := by
  have h1 : LONG_MIN ≤ signed_value negative digits := by
    unfold LONG_MIN; unfold INT_MIN at hmin; omega
  have h2 : signed_value negative digits ≤ LONG_MAX := by
    unfold LONG_MAX; unfold INT_MAX at hmax; omega
  have hlen : (decimal negative digits).length ≠ 0 := by
    have : digits.length ≠ 0 := fun e => hne (List.length_eq_zero.1 e)
    unfold decimal
    rw [List.length_append, List.length_map]
    omega
  unfold convert_debouncing
  rw [strtol_decimal negative digits hne hd h1 h2]
  have hcond : ¬ ((decimal negative digits).length = 0
      ∨ (decimal negative digits).drop (decimal negative digits).length ≠ []
      ∨ ((LONG_MIN = signed_value negative digits ∨ LONG_MAX = signed_value negative digits)
          ∧ errno_erange = true)
      ∨ signed_value negative digits > INT_MAX
      ∨ signed_value negative digits < INT_MIN) := by
    unfold LONG_MIN LONG_MAX
    unfold INT_MIN at hmin
    unfold INT_MAX at hmax
    simp only [List.drop_length, ne_eq, not_true_eq_false, false_or, hlen, not_or, not_and,
      not_lt]
    refine ⟨?_, hmax, hmin⟩
    intro h
    omega
  simp only [if_neg hcond]

theorem target_step_negative (t : Target) (nidx : Nat) (now now_sent : Int)
    (hneg : t.debouncing < 0) (hnow : t.last_notif_sent nidx ≤ now) :
    (target_step t nidx now now_sent).2 = true := by
  rw [target_step_sent]
  unfold ignoring_target
  have h0 : t.debouncing ≠ 0 := by omega
  have h1 : ¬ now - t.last_notif_sent nidx < t.debouncing := by omega
  simp [h0, h1]

theorem matches_run_negative (nidx : Nat) (times : List Int) :
    ∀ t : Target, t.debouncing < 0 → List.Chain (fun a b => a ≤ b) (t.last_notif_sent nidx) times →
      (matches_run nidx t (times.map (fun now => (now, now)))).2 = times.length := by
  induction times with
  | nil => intro t _ _; rfl
  | cons x xs ih =>
    intro t hneg hchain
    obtain ⟨hx, hxs⟩ := List.chain_cons.1 hchain
    have h1 := target_step_negative t nidx x x hneg hx
    have h2 : (target_step t nidx x x).1.last_notif_sent nidx = x := by
      rw [target_step_last]
      have : ignoring_target t.debouncing (t.last_notif_sent nidx) x = false := by
        rw [target_step_sent] at h1
        simpa using h1
      simp [this]
    have h3 := ih (target_step t nidx x x).1
      (by rw [target_step_debouncing]; exact hneg) (by rw [h2]; exact hxs)
    simp only [List.map_cons, matches_run, h1, if_true, h3, List.length_cons]
    omega

theorem decimal_value_reverse (l : List Nat) :
    decimal_value l.reverse = Nat.ofDigits 10 l := by
  unfold decimal_value
  rw [List.foldl_reverse]
  induction l with
  | nil => rfl
  | cons d ds ih =>
    simp only [List.foldr_cons, Nat.ofDigits_cons, ih]
    omega

theorem exists_decimal (n : Nat) :
    ∃ digits : List Nat, digits ≠ [] ∧ (∀ d ∈ digits, d < 10) ∧ decimal_value digits = n := by
  by_cases h : n = 0
  · exact ⟨[0], by simp, by simp, by simp [h, decimal_value]⟩
  · refine ⟨(Nat.digits 10 n).reverse, ?_, ?_, ?_⟩
    · simpa using (Nat.digits_ne_nil_iff_ne_zero.2 h)
    · intro d hd
      exact Nat.digits_lt_base (by norm_num) (List.mem_reverse.1 hd)
    · rw [decimal_value_reverse, Nat.ofDigits_digits]

theorem exists_accepted (v : Int) (hmin : INT_MIN ≤ v) (hmax : v ≤ INT_MAX) :
    ∃ negative digits, digits ≠ [] ∧ (∀ d ∈ digits, d < 10) ∧
      signed_value negative digits = v ∧
      ∀ errno_erange, convert_debouncing (decimal negative digits) errno_erange = some v := by
  obtain ⟨digits, h1, h2, h3⟩ := exists_decimal v.natAbs
  have hv : signed_value (decide (v < 0)) digits = v := by
    unfold signed_value
    rw [h3]
    by_cases hneg : v < 0
    · simp only [hneg, decide_True, if_true]; omega
    · simp only [hneg, decide_False, Bool.false_eq_true, if_false]; omega
  refine ⟨decide (v < 0), digits, h1, h2, hv, ?_⟩
  intro errno_erange
  have := convert_debouncing_decimal (decide (v < 0)) digits errno_erange h1 h2
    (by rw [hv]; exact hmin) (by rw [hv]; exact hmax)
  rw [this, hv]

theorem decimal_no_eol (negative : Bool) (digits : List Nat) (hd : ∀ d ∈ digits, d < 10) :
    ∀ c ∈ decimal negative digits, c ≠ '\n' ∧ c ≠ '\r' := by
  have hdigit : ∀ d, d < 10 → digit_char d ≠ '\n' ∧ digit_char d ≠ '\r' := by
    intro d h
    interval_cases d <;> decide
  intro c hc
  unfold decimal at hc
  rcases List.mem_append.1 hc with h | h
  · cases negative with
    | false => simp at h
    | true =>
      simp only [if_true, List.mem_singleton] at h
      subst h
      decide
  · obtain ⟨d, hd1, hd2⟩ := List.mem_map.1 h
    subst hd2
    exact hdigit d (hd d hd1)

theorem terminate_line (s rest : CStr) (h : ∀ c ∈ s, c ≠ '\n' ∧ c ≠ '\r') :
    terminate_str_at_first_eol (s ++ '\n' :: rest) = s := by
  induction s with
  | nil => simp [terminate_str_at_first_eol]
  | cons a cs ih =>
    have ha : ¬ (a = '\n' ∨ a = '\r') := by
      have := h a (by simp)
      tauto
    simp [terminate_str_at_first_eol, ha, ih (fun c hc => h c (by simp [hc]))]

/-- C24: the loader of a target accepts the text of every decimal integer in the range of
`int`, negative ones included, alone or as the first line of the file, and stores its value
as the debouncing value, and every integer of that range has such a text; for a target
whose debouncing value is negative, every match of a notification at a time that is not
before `last_notif_sent[nidx]` calls `invoke_target`, so that over matches at
non-decreasing times none is suppressed. -/
theorem negative_debounce (negative : Bool) (digits : List Nat) (t : Target) (nidx : Nat)
    (times : List Int) (hne : digits ≠ []) (hd : ∀ d ∈ digits, d < 10)
    (hmin : INT_MIN ≤ signed_value negative digits)
    (hmax : signed_value negative digits ≤ INT_MAX)
    (hneg : t.debouncing < 0)
    (hchain : List.Chain (fun a b => a ≤ b) (t.last_notif_sent nidx) times) :
    (∀ errno_erange, convert_debouncing (decimal negative digits) errno_erange
      = some (signed_value negative digits)) ∧
    (∀ errno_erange rest, load_debouncing (decimal negative digits ++ '\n' :: rest) errno_erange
      = some (signed_value negative digits)) ∧
    (∀ v : Int, INT_MIN ≤ v → v ≤ INT_MAX →
      ∃ neg ds, signed_value neg ds = v ∧
        ∀ errno_erange, convert_debouncing (decimal neg ds) errno_erange = some v) ∧
    (∀ now now_sent, t.last_notif_sent nidx ≤ now →
      (target_step t nidx now now_sent).2 = true) ∧
    (matches_run nidx t (times.map (fun now => (now, now)))).2 = times.length := by
  refine ⟨fun e => convert_debouncing_decimal negative digits e hne hd hmin hmax, ?_, ?_,
    fun now now_sent h => target_step_negative t nidx now now_sent hneg h,
    matches_run_negative nidx times t hneg hchain⟩
  · intro e rest
    unfold load_debouncing
    rw [terminate_line _ rest (decimal_no_eol negative digits hd)]
    exact convert_debouncing_decimal negative digits e hne hd hmin hmax
  · intro v h1 h2
    obtain ⟨neg, ds, _, _, h5, h6⟩ := exists_accepted v h1 h2
    exact ⟨neg, ds, h5, h6⟩

theorem negative_debounce_witness :
    ([5] : List Nat) ≠ [] ∧ (∀ d ∈ ([5] : List Nat), d < 10) ∧
    INT_MIN ≤ signed_value true [5] ∧ signed_value true [5] ≤ INT_MAX ∧
    (target_sent_at [] (-5) 0 100).debouncing < 0 ∧
    List.Chain (fun a b => a ≤ b) ((target_sent_at [] (-5) 0 100).last_notif_sent 0)
      [100, 101, 101, 130] ∧
    decimal true [5] = "-5".toList ∧
    convert_debouncing "-5".toList false = some (-5) ∧
    (matches_run 0 (target_sent_at [] (-5) 0 100)
      ([100, 101, 101, 130].map (fun now => (now, now)))).2 = [100, 101, 101, 130].length :=
  ⟨by decide, by decide, by decide, by decide, by decide, by simp [target_sent_at],
    by decide, by decide,
    (negative_debounce true [5] (target_sent_at [] (-5) 0 100) 0 [100, 101, 101, 130]
      (by decide) (by decide) (by decide) (by decide) (by decide)
      (by simp [target_sent_at])).2.2.2.2⟩

end Logmonitor
